/-
  Verification of the CronMaster scheduler/executor subsystem.

  Shallow embedding of the relevant backend code:
  - `backend/src/utils/cronUtils.js`   (validateCronExpression, validateCronPart,
    isValidNumber, getNextExecutionTime)
  - `backend/src/utils/validation.js`  (the Joi cron-expression regex used by
    validateCronJobCreation / validateCronJobUpdate, sanitizeInput)
  - `backend/src/services/jobWorker.js` (executeJob, triggerJob, start /
    loadAndScheduleJobs)
  - `backend/src/controllers` job controller (createJob validation path,
    updateJob, deleteJob, toggleJobStatus, triggerJob)

  JavaScript strings are modelled as `List Char` (a JS string is a sequence of
  UTF-16 code units; all characters appearing in cron expressions are in the
  BMP, where the two notions coincide).  Instants are modelled as minutes since
  the Unix epoch (`Nat`); the server clock runs in UTC, matching the deployed
  configuration, and every quantity the embedded code manipulates is a whole
  number of minutes.
-/
import Mathlib

namespace CronMaster

/-- JavaScript strings, modelled as lists of characters. -/
abbrev Str := List Char

/-- Model of the JavaScript whitespace class used by `trim` and `\s`
(ASCII whitespace: space, tab, LF, VT, FF, CR; the Unicode extras never occur
in the inputs considered here). -/
def isJsWs (c : Char) : Bool :=
  c == ' ' || c == '\t' || c == '\n' || c == '\x0b' || c == '\x0c' || c == '\r'

/-- Remove trailing JavaScript whitespace. -/
def trimRight (s : Str) : Str := (s.reverse.dropWhile isJsWs).reverse

/-- Model of JavaScript `String.prototype.trim`. -/
def jsTrim (s : Str) : Str := trimRight (s.dropWhile isJsWs)

/-- Split a character list at every position satisfying `P`, keeping empty
segments — the semantics of JavaScript `String.prototype.split` with a
single-character (or single-class) separator. -/
def splitP (P : Char → Bool) : Str → List Str
  | [] => [[]]
  | c :: cs =>
    match splitP P cs with
    | [] => [[c]]
    | s :: ss => if P c then [] :: s :: ss else (c :: s) :: ss

/-- JavaScript `s.split(sep)` for a single-character separator. -/
def jsSplitChar (sep : Char) (s : Str) : List Str :=
  splitP (· == sep) s

/-- Model of `s.trim().split(/\s+/)`: on a trimmed string, a `\s+` split
yields the maximal whitespace-free runs (JS returns `[""]` for the empty
string). -/
def jsTrimSplitWs (s : Str) : List Str :=
  let t := jsTrim s
  if t = [] then [[]]
  else (splitP isJsWs t).filter (· ≠ [])

/-- Numeric value of a list of decimal digit characters (most significant
first). -/
def digitsVal (s : Str) : Nat :=
  s.foldl (fun acc c => 10 * acc + (c.toNat - '0'.toNat)) 0

/-- Parse the longest prefix of decimal digits; `none` when there is none —
the digit-consuming core of JavaScript `parseInt`. -/
def parseDigitsPrefix (s : Str) : Option Nat :=
  let ds := s.takeWhile Char.isDigit
  if ds = [] then none else some (digitsVal ds)

/-- Model of JavaScript `parseInt(s)` (radix 10): skip leading whitespace,
accept an optional sign, then read a decimal-digit prefix; `none` models
`NaN`.  (The `0x` hexadecimal auto-detection is not modelled: every use in
the embedded code compares the result against its canonical decimal
rendering, so a hexadecimal input is rejected either way.) -/
def jsParseInt (s : Str) : Option Int :=
  match s.dropWhile isJsWs with
  | [] => none
  | c :: r =>
    if c = '-' then (parseDigitsPrefix r).map (fun n => -(n : Int))
    else if c = '+' then (parseDigitsPrefix r).map (fun n => (n : Int))
    else (parseDigitsPrefix (c :: r)).map (fun n => (n : Int))

/-- Fuel-driven digit renderer (structural recursion so that the kernel can
evaluate it); `natToStr` supplies enough fuel. -/
def natToStrAux (fuel : Nat) (n : Nat) : Str :=
  match fuel with
  | 0 => []
  | fuel + 1 =>
    if n < 10 then [Nat.digitChar n]
    else natToStrAux fuel (n / 10) ++ [Nat.digitChar (n % 10)]

/-- Canonical decimal rendering of a natural number (the output of JavaScript
`Number.prototype.toString` on a non-negative integer). -/
def natToStr (n : Nat) : Str := natToStrAux (n + 1) n

/-- JavaScript `Number.prototype.toString` on an integer. -/
def intToStr (i : Int) : Str :=
  if i < 0 then '-' :: natToStr i.natAbs else natToStr i.toNat

/-- JavaScript `String.prototype.toUpperCase` (ASCII range, which covers the
method names handled here). -/
def jsToUpper (s : Str) : Str := s.map Char.toUpper

/-- Model of `sanitizeInput` from `validation.js` on a string value: it trims
and strips `<script>…</script>` blocks.  On every string considered in this
development (cron expressions, timezones, method names — none containing the
character `<`) the script-stripping step is the identity, so the model is the
trim alone. -/
def sanitizeStr (s : Str) : Str := jsTrim s

/-! ### `cronUtils.js` -/

/-- `isValidNumber(value, min, max)` from `cronUtils.js`:
`const num = parseInt(value);`
`return !isNaN(num) && num >= min && num <= max && num.toString() === value.trim();` -/
def isValidNumber (value : Str) (min max : Int) : Bool :=
  match jsParseInt value with
  | none => false
  | some num => decide (min ≤ num) && decide (num ≤ max) && (intToStr num == jsTrim value)

/-- `validateCronPart(part, min, max, name)` from `cronUtils.js`, keeping only
the `isValid` component of the result (the error text plays no role in any
claim).  Branch order follows the source: `*`, then `/`, then `-`, then `,`,
then a single number.  The JS destructuring `const [range, step] = part.split('/')`
yields `undefined` for a missing component; `undefined` is modelled by `[]`,
on which `parseInt` is `NaN` exactly as in JS. -/
def validateCronPart (part : Str) (min max : Int) : Bool :=
  if part == ['*'] then true
  else if part.contains '/' then
    let ps := jsSplitChar '/' part
    let range := ps.getD 0 []
    let step := ps.getD 1 []
    if range != ['*'] && !isValidNumber range min max then false
    else if !isValidNumber step 1 max then false
    else true
  else if part.contains '-' then
    let ps := jsSplitChar '-' part
    let start := ps.getD 0 []
    let stop := ps.getD 1 []
    if !isValidNumber start min max || !isValidNumber stop min max then false
    else if (jsParseInt start).getD 0 ≥ (jsParseInt stop).getD 0 then false
    else true
  else if part.contains ',' then
    (jsSplitChar ',' part).all (fun v => isValidNumber (jsTrim v) min max)
  else isValidNumber part min max

/-- `validateCronExpression(cronExpression)` from `cronUtils.js`, keeping only
the `isValid` component: trim, split on whitespace runs, require exactly five
parts, validate each part against its field range.  (The surrounding
`try/catch` can only fire on a non-string argument; on strings the body is
total.) -/
def validateCronExpression (cronExpression : Str) : Bool :=
  match jsTrimSplitWs cronExpression with
  | [minute, hour, day, month, dayOfWeek] =>
    validateCronPart minute 0 59 &&
    validateCronPart hour 0 23 &&
    validateCronPart day 1 31 &&
    validateCronPart month 1 12 &&
    validateCronPart dayOfWeek 0 6
  | _ => false

/-- `getNextExecutionTime(cronExpression, timezone = 'UTC')` from
`cronUtils.js`, with the implicit `new Date()` made an explicit `now`
parameter (minutes since epoch, UTC server clock).  The `timezone` argument
is never read by the body, exactly as in the source.  Millisecond arithmetic
(`+ 60000`, `+ intervalMinutes * 60000`) becomes minute arithmetic;
`setHours(getHours()+1, 0, 0, 0)` is flooring to the hour plus one hour;
`setDate(getDate()+1); setHours(0,0,0,0)` is flooring to the (UTC) day plus
one day; the final fallback `setMinutes(getMinutes()+1)` is plus one minute.
`none` models the JS `Invalid Date` produced when `parseInt` yields `NaN` in
the `*/` branch (possible only for expressions the validator rejects); for
a negative parsed interval — likewise rejected by the validator — the model
clamps at `now`.  The `catch` branch returning `null` is unreachable for
string arguments. -/
def getNextExecutionTime (cronExpression : Str) (timezone : Str) (now : Nat) : Option Nat :=
  if cronExpression == ("* * * * *".data) then
    some (now + 1)
  else if ("*/".data).isPrefixOf cronExpression then
    let tok0 := (jsSplitChar ' ' cronExpression).getD 0 []
    let stepStr := (jsSplitChar '/' tok0).getD 1 []
    match jsParseInt stepStr with
    | some k => some (now + k.toNat)
    | none => none
  else if cronExpression == ("0 * * * *".data) then
    some (now / 60 * 60 + 60)
  else if cronExpression == ("0 0 * * *".data) then
    some (now / 1440 * 1440 + 1440)
  else
    some (now + 1)

/-! ### `validation.js` — the Joi cron-expression pattern

`validateCronJobCreation` and `validateCronJobUpdate` validate
`cronExpression` against the anchored regular expression

  `^(\*|([0-9]|1[0-9]|2[0-9]|3[0-9]|4[0-9]|5[0-9])|\*\/(…)) (…hour…) (…day…) (…month…) (…dow…)$`

(the same literal appears at `validation.js` lines 8 and 153).  Each field
alternative is `*`, a number written as one of the listed digit patterns, or
`*/` followed by such a number; fields are joined by single literal spaces.
The digit patterns are exactly the canonical (no leading zero) decimal
renderings of the field's range: e.g. `[0-9]|1[0-9]|2[0-9]|3[0-9]|4[0-9]|5[0-9]`
is `"0"…"59"`.  Since no field alternative can contain a space, the whole
regex matches iff splitting on `' '` yields exactly five segments, each in
its field language. -/

/-- Parse a string that is a canonical decimal numeral (nonempty, all digits,
no leading zero unless the string is `"0"`); this is exactly the language of
the per-field digit patterns of the Joi regex. -/
def canonParseNat (s : Str) : Option Nat :=
  match s with
  | [] => none
  | c :: cs =>
    if c = '0' then (if cs = [] then some 0 else none)
    else if (c :: cs).all Char.isDigit then some (digitsVal (c :: cs)) else none

/-- The numeric alternative of one Joi regex field: a canonical decimal in
`[lo, hi]`. -/
def joiNumAccepts (lo hi : Nat) (s : Str) : Bool :=
  match canonParseNat s with
  | some n => decide (lo ≤ n) && decide (n ≤ hi)
  | none => false

/-- One field of the Joi cron regex: `*`, a number, or `*/` + number (the
step number uses the same digit patterns as the value in every field; the
`*/` prefix is tested via `take`/`drop`). -/
def joiFieldAccepts (lo hi : Nat) (s : Str) : Bool :=
  s == ['*'] || joiNumAccepts lo hi s ||
    (s.take 2 == ['*', '/'] && joiNumAccepts lo hi (s.drop 2))

/-- Whole-string acceptance of the Joi cron regex (`patterns.cronExpression`,
also inlined in `validateCronJobCreation`). -/
def joiCronRegexAccepts (s : Str) : Bool :=
  match jsSplitChar ' ' s with
  | [f1, f2, f3, f4, f5] =>
    joiFieldAccepts 0 59 f1 && joiFieldAccepts 0 23 f2 && joiFieldAccepts 1 31 f3 &&
    joiFieldAccepts 1 12 f4 && joiFieldAccepts 0 6 f5
  | _ => false

/-- The cron-acceptance predicate of the job-creation path
(`jobController.createJob`): the request body is passed through
`sanitizeInput` (trim), then `validateCronJobCreation`'s Joi schema applies
the cron regex, then the controller calls `validateCronExpression`.  A cron
expression is accepted (no `ValidationError`) iff both checks pass. -/
def createJobCronAccepts (s : Str) : Bool :=
  joiCronRegexAccepts (sanitizeStr s) && validateCronExpression (sanitizeStr s)

/-! ### Spec-side cron semantics

The system's actual firing engine is the external `node-cron` library, not
code of this repository; the wall-clock satisfaction relation below is
therefore taken from the specification.  Modelled from the spec: §4.1
accepted grammar and fire-instant condition (including the day-of-month /
day-of-week union rule), over the UTC decomposition of an instant. -/

/-- Gregorian civil date from a day count since 1970-01-01 (days ≥ 0);
standard era-based algorithm, returning `(year, month, day)`. -/
def civilFromDays (days : Nat) : Nat × Nat × Nat :=
  let z := days + 719468
  let era := z / 146097
  let doe := z % 146097
  let yoe := (doe - doe / 1460 + doe / 36524 - doe / 146096) / 365
  let y := yoe + era * 400
  let doy := doe - (365 * yoe + yoe / 4 - yoe / 100)
  let mp := (5 * doy + 2) / 153
  let d := doy - (153 * mp + 2) / 5 + 1
  let m := if mp < 10 then mp + 3 else mp - 9
  (if m ≤ 2 then y + 1 else y, m, d)

/-- Wall-clock decomposition of an instant (minutes since epoch) in UTC:
minute, hour, day-of-month, month, day-of-week (Sunday = 0). -/
structure WallClock where
  minute : Nat
  hour : Nat
  day : Nat
  month : Nat
  dow : Nat
deriving DecidableEq, Repr

/-- Decompose an instant (minutes since the Unix epoch) in UTC.  Day 0
(1970-01-01) was a Thursday, hence the `+ 4` for the day-of-week. -/
def decomposeUTC (t : Nat) : WallClock :=
  let days := t / 1440
  let c := civilFromDays days
  { minute := t % 60, hour := t / 60 % 24, day := c.2.2, month := c.2.1,
    dow := (days + 4) % 7 }

/-- One element of a cron field, per the spec grammar: `*`, a number, a range
`a-b`, a step `*/n`, or a stepped range `a-b/n`. -/
inductive CronElem where
  | star : CronElem
  | num (n : Nat) : CronElem
  | range (a b : Nat) : CronElem
  | step (n : Nat) : CronElem
  | rangeStep (a b n : Nat) : CronElem
deriving DecidableEq, Repr

/-- A cron field: a single element or a comma-separated list of elements. -/
abbrev CronField := List CronElem

/-- A parsed five-field cron expression. -/
structure CronExpr where
  minute : CronField
  hour : CronField
  day : CronField
  month : CronField
  dow : CronField
deriving DecidableEq, Repr

/-- Parse an all-digit numeral (leading zeros permitted — the spec grammar
says only "a non-negative integer in the field's range"). -/
def parseNumeral (s : Str) : Option Nat :=
  if s ≠ [] && s.all Char.isDigit then some (digitsVal s) else none

/-- Parse one element of a cron field against its range `[lo, hi]`, per the
spec grammar: `*`; an in-range integer; `a-b` with `a < b`, both in range;
`*/n` or `a-b/n` with `1 ≤ n ≤ hi`. -/
def parseCronElem (lo hi : Nat) (s : Str) : Option CronElem :=
  if s = ['*'] then some CronElem.star
  else
    match jsSplitChar '/' s with
    | [base, stepStr] =>
      match parseNumeral stepStr with
      | none => none
      | some n =>
        if n < 1 || n > hi then none
        else if base = ['*'] then some (CronElem.step n)
        else
          match jsSplitChar '-' base with
          | [sa, sb] =>
            match parseNumeral sa, parseNumeral sb with
            | some a, some b =>
              if a < b && lo ≤ a && b ≤ hi then some (CronElem.rangeStep a b n) else none
            | _, _ => none
          | _ => none
    | [_] =>
      match jsSplitChar '-' s with
      | [sa, sb] =>
        match parseNumeral sa, parseNumeral sb with
        | some a, some b =>
          if a < b && lo ≤ a && b ≤ hi then some (CronElem.range a b) else none
        | _, _ => none
      | [single] =>
        match parseNumeral single with
        | some n => if lo ≤ n && n ≤ hi then some (CronElem.num n) else none
        | none => none
      | _ => none
    | _ => none

/-- Parse a cron field (a comma-separated list of elements). -/
def parseCronField (lo hi : Nat) (s : Str) : Option CronField :=
  let parts := jsSplitChar ',' s
  let elems := parts.map (parseCronElem lo hi)
  if elems.all Option.isSome then some (elems.reduceOption) else none

/-- Parse a whole five-field cron expression per the spec grammar. -/
def parseCronExprSpec (s : Str) : Option CronExpr :=
  match jsTrimSplitWs s with
  | [f1, f2, f3, f4, f5] =>
    match parseCronField 0 59 f1, parseCronField 0 23 f2, parseCronField 1 31 f3,
          parseCronField 1 12 f4, parseCronField 0 6 f5 with
    | some mi, some h, some d, some mo, some dw =>
      some { minute := mi, hour := h, day := d, month := mo, dow := dw }
    | _, _, _, _, _ => none
  | _ => none

/-- Does a field element match a value?  Steps enumerate from the field's
lower bound (`lo, lo+n, …`), ranges with steps from their own start. -/
def elemMatches (lo : Nat) (e : CronElem) (v : Nat) : Bool :=
  match e with
  | CronElem.star => true
  | CronElem.num n => v == n
  | CronElem.range a b => decide (a ≤ v) && decide (v ≤ b)
  | CronElem.step n => (v - lo) % n == 0
  | CronElem.rangeStep a b n => decide (a ≤ v) && decide (v ≤ b) && ((v - a) % n == 0)

/-- Does a cron field match a value? -/
def fieldMatches (lo : Nat) (f : CronField) (v : Nat) : Bool :=
  f.any (fun e => elemMatches lo e v)

/-- Is a field unrestricted (the bare `*`)? -/
def fieldIsStar (f : CronField) : Bool := f == [CronElem.star]

/-- Fire-instant condition of a parsed cron expression at a wall clock, per
the spec: minute, hour and month are conjunctive; if day-of-month and
day-of-week are both restricted their conditions are joined by union,
otherwise conjunctively. -/
def exprMatches (e : CronExpr) (w : WallClock) : Bool :=
  let dayOk :=
    if !fieldIsStar e.day && !fieldIsStar e.dow then
      fieldMatches 1 e.day w.day || fieldMatches 0 e.dow w.dow
    else
      fieldMatches 1 e.day w.day && fieldMatches 0 e.dow w.dow
  fieldMatches 0 e.minute w.minute && fieldMatches 0 e.hour w.hour &&
    fieldMatches 1 e.month w.month && dayOk

/-- Satisfaction of a cron expression string at an instant, in UTC. -/
def cronSatisfiedAt (s : Str) (t : Nat) : Bool :=
  match parseCronExprSpec s with
  | some e => exprMatches e (decomposeUTC t)
  | none => false

/-! ### Data model (prisma `cronJob` / `jobExecution` rows) -/

/-- Job lifecycle status. -/
inductive JobStatus where
  | active : JobStatus
  | paused : JobStatus
  | deleted : JobStatus
deriving DecidableEq, Repr

/-- Execution status.  (`timeout` and `cancelled` exist in the status
taxonomy — `validateExecutionFilters` lists them as filterable — but, as
proved below, the worker never writes them.) -/
inductive ExecStatus where
  | running : ExecStatus
  | success : ExecStatus
  | failed : ExecStatus
  | timeout : ExecStatus
  | cancelled : ExecStatus
deriving DecidableEq, Repr

/-- Origin of an execution. -/
inductive TriggeredBy where
  | cron : TriggeredBy
  | manual : TriggeredBy
deriving DecidableEq, Repr

/-- A `cronJob` row (the fields the embedded operations read or write). -/
structure Job where
  id : Nat
  user_id : Nat
  name : Str
  url : Str
  method : Str
  cron_expression : Str
  timezone : Str
  headers : List (Str × Str)
  body : Option Str
  description : Option Str
  status : JobStatus
  success_count : Nat
  failure_count : Nat
  last_execution : Option Nat
  next_execution : Option Nat
  updated_at : Nat
deriving DecidableEq, Repr

/-- A `jobExecution` row. -/
structure JobExecution where
  id : Nat
  job_id : Nat
  executed_at : Nat
  status : ExecStatus
  duration : Option Nat
  response_code : Option Nat
  response_body : Option Str
  response_headers : Option (List (Str × Str))
  error_message : Option Str
  triggered_by : TriggeredBy
deriving DecidableEq, Repr

/-- The database of record: job rows, execution rows, and the
auto-increment counter for execution ids. -/
structure DB where
  jobs : List Job
  executions : List JobExecution
  nextExecId : Nat
deriving DecidableEq, Repr

/-- Outcome of the single axios call in `executeJob`.  With
`validateStatus: () => true` axios resolves whenever an HTTP response
arrives, whatever the status; it rejects (throws) on timeout
(`ECONNABORTED`, no `error.response`) and on network-layer failures.
`dataJson` carries `JSON.stringify(response.data)` — the stringification of
the payload, performed outside the repository by axios/`JSON` — so that the
truncation `substring(0, 10000)` is the model's own `List.take`. -/
inductive HttpOutcome where
  | response (status : Nat) (dataJson : Str) (headers : List (Str × Str)) : HttpOutcome
  | failure (message : Str) (responseStatus : Option Nat) : HttpOutcome
deriving DecidableEq, Repr

/-- The timeout outcome of the 30-second axios budget: the request is
aborted before any response, so `error.response` is `undefined` and
`error.message` is axios's `"timeout of 30000ms exceeded"`. -/
def timeoutOutcome : HttpOutcome :=
  HttpOutcome.failure ("timeout of 30000ms exceeded".data) none

/-- Errors surfaced by the controller operations. -/
inductive RepoError where
  | notFound : RepoError
  | validation : RepoError
deriving DecidableEq, Repr

/-! ### `jobWorker.js` — executeJob, triggerJob, startup -/

/-- The `prisma.jobExecution.create` call at the top of `executeJob`:
a fresh row in status `running`, `triggered_by: 'cron'` (hard-coded in the
source — `executeJob` takes no trigger-origin parameter). -/
def mkRunningExec (db : DB) (jobId now : Nat) : JobExecution :=
  { id := db.nextExecId, job_id := jobId, executed_at := now,
    status := ExecStatus.running, duration := none, response_code := none,
    response_body := none, response_headers := none, error_message := none,
    triggered_by := TriggeredBy.cron }

/-- The `prisma.jobExecution.update` that finalizes the execution row.
Response path: `status: isSuccess ? 'success' : 'failed'`, the status code,
`JSON.stringify(response.data).substring(0, 10000)` (the source comment
says "Limit to 10KB"), and the response headers.  Failure (catch) path:
`status: 'failed'`, `error_message: error.message`,
`response_code: error.response?.status || null`. -/
def finalizeExec (e : JobExecution) (o : HttpOutcome) (dur : Nat) : JobExecution :=
  match o with
  | HttpOutcome.response st dataJson hs =>
    { e with
      status := if 200 ≤ st ∧ st < 300 then ExecStatus.success else ExecStatus.failed,
      duration := some dur,
      response_code := some st,
      response_body := some (dataJson.take 10000),
      response_headers := some hs }
  | HttpOutcome.failure msg st? =>
    { e with
      status := ExecStatus.failed,
      duration := some dur,
      error_message := some msg,
      response_code := st? }

/-- Whether the outcome counts as a success (`response.status >= 200 &&
response.status < 300`; the catch path is never a success). -/
def outcomeIsSuccess (o : HttpOutcome) : Bool :=
  match o with
  | HttpOutcome.response st _ _ => decide (200 ≤ st) && decide (st < 300)
  | HttpOutcome.failure _ _ => false

/-- The `prisma.cronJob.update` at the end of `executeJob` — both the
response path and the catch path write `last_execution: new Date()` and
`next_execution: getNextExecutionTime(job.cron_expression, job.timezone)`
unconditionally (no status check), and increment exactly one counter. -/
def applyExecJobUpdate (j : Job) (success : Bool) (nextEx : Option Nat) (now : Nat) : Job :=
  { j with
    last_execution := some now,
    next_execution := nextEx,
    success_count := if success then j.success_count + 1 else j.success_count,
    failure_count := if success then j.failure_count else j.failure_count + 1 }

/-- `JobWorkerService.executeJob(job)`: create the `running` row, perform
the HTTP request (its result is the `o` parameter), finalize the row, and
update the parent job's statistics.  The two prisma updates address rows by
unique id; they are modelled as a map over the respective lists. -/
def executeJob (db : DB) (job : Job) (o : HttpOutcome) (now dur : Nat) : DB :=
  let created := mkRunningExec db job.id now
  let execs := created :: db.executions
  let execs := execs.map (fun e => if e.id = created.id then finalizeExec e o dur else e)
  let nextEx := getNextExecutionTime job.cron_expression job.timezone now
  let jobs := db.jobs.map (fun j =>
    if j.id = job.id then applyExecJobUpdate j (outcomeIsSuccess o) nextEx now else j)
  { jobs := jobs, executions := execs, nextExecId := db.nextExecId + 1 }

/-- `JobWorkerService.triggerJob(jobId)`: `findUnique({ where: { id } })`
(no ownership or status filter) and, when found, `executeJob`. -/
def workerTriggerJob (db : DB) (jobId : Nat) (o : HttpOutcome) (now dur : Nat) :
    Option DB :=
  match db.jobs.find? (fun j => j.id == jobId) with
  | none => none
  | some job => some (executeJob db job o now dur)

/-- `loadAndScheduleJobs` — the database query of `JobWorkerService.start`:
`findMany({ where: { status: 'active', next_execution: { not: null } } })`,
then each result is armed.  It performs no writes; the returned list is the
live set of scheduled job ids. -/
def loadAndScheduleJobs (db : DB) : List Nat :=
  (db.jobs.filter (fun j => j.status == JobStatus.active && j.next_execution.isSome)).map
    (fun j => j.id)

/-- `JobWorkerService.start`: load and schedule the active jobs and start
the maintenance cron tasks.  No database mutation occurs at startup; the
result is the unchanged database paired with the live set. -/
def workerStart (db : DB) : DB × List Nat :=
  (db, loadAndScheduleJobs db)

/-! ### `jobController.js` — toggle, delete, update, trigger -/

/-- The ownership/visibility lookup used by every job controller operation:
`findFirst({ where: { id, user_id, status: { not: 'deleted' } } })`. -/
def findFirstJob (db : DB) (userId jobId : Nat) : Option Job :=
  db.jobs.find? (fun j =>
    j.id == jobId && j.user_id == userId && j.status != JobStatus.deleted)

/-- `toggleJobStatus`: flip active ↔ paused.  The update data is
`{ status, updated_at, ...(newStatus === 'active' && { next_execution:
getNextExecutionTime(...) }) }` — `next_execution` is recomputed only when
activating; pausing leaves the stored value untouched.  Returns the new
database and the updated row. -/
def toggleJobStatus (db : DB) (userId jobId now : Nat) : Except RepoError (DB × Job) :=
  match findFirstJob db userId jobId with
  | none => Except.error RepoError.notFound
  | some ej =>
    let newStatus := if ej.status = JobStatus.active then JobStatus.paused else JobStatus.active
    let upd := fun (j : Job) =>
      { j with
        status := newStatus,
        updated_at := now,
        next_execution :=
          if newStatus = JobStatus.active then
            getNextExecutionTime ej.cron_expression ej.timezone now
          else j.next_execution }
    Except.ok
      ({ db with jobs := db.jobs.map (fun j => if j.id = jobId then upd j else j) }, upd ej)

/-- `deleteJob` (soft delete): after the same ownership/not-deleted lookup,
the update data is `{ status: 'deleted', updated_at }` — and nothing else;
in particular `next_execution` is not written. -/
def deleteJob (db : DB) (userId jobId now : Nat) : Except RepoError DB :=
  match findFirstJob db userId jobId with
  | none => Except.error RepoError.notFound
  | some _ =>
    Except.ok
      { db with
        jobs := db.jobs.map (fun j =>
          if j.id = jobId then { j with status := JobStatus.deleted, updated_at := now }
          else j) }

/-- The sanitized, Joi-validated `value` of an update request
(`validateCronJobUpdate`): absent fields are `none`.  Joi guarantees that a
present `timezone` is a nonempty string and a present `status` is `active`
or `paused`, so JS truthiness tests on these values coincide with
presence. -/
structure JobPatch where
  name : Option Str := none
  url : Option Str := none
  method : Option Str := none
  timezone : Option Str := none
  headers : Option (List (Str × Str)) := none
  body : Option Str := none
  status : Option JobStatus := none
  description : Option Str := none
  cronExpression : Option Str := none
deriving Repr

/-- `updateJob`: ownership/not-deleted lookup, then a partial update.  A
present `cronExpression` must pass the Joi regex (upstream, in
`validateCronJobUpdate`) and the controller's `validateCronExpression`;
only then does the update set `cron_expression` (trimmed) and recompute
`next_execution` with `value.timezone || existingJob.timezone`.  A patch
without `cronExpression` — including a timezone-only patch — never touches
`next_execution`. -/
def updateJob (db : DB) (userId jobId : Nat) (p : JobPatch) (now : Nat) :
    Except RepoError (DB × Job) :=
  match findFirstJob db userId jobId with
  | none => Except.error RepoError.notFound
  | some ej =>
    let cronOk :=
      match p.cronExpression with
      | none => true
      | some ce => joiCronRegexAccepts ce && validateCronExpression ce
    if !cronOk then Except.error RepoError.validation
    else
      let upd := fun (j : Job) =>
        let j := { j with
          name := (p.name.map jsTrim).getD j.name,
          url := (p.url.map jsTrim).getD j.url,
          method := (p.method.map jsToUpper).getD j.method,
          timezone := p.timezone.getD j.timezone,
          headers := p.headers.getD j.headers,
          body := match p.body with | some b => some b | none => j.body,
          status := p.status.getD j.status,
          description := match p.description with | some d => some d | none => j.description,
          updated_at := now }
        match p.cronExpression with
        | none => j
        | some ce =>
          { j with
            cron_expression := jsTrim ce,
            next_execution :=
              getNextExecutionTime ce (p.timezone.getD ej.timezone) now }
      Except.ok
        ({ db with jobs := db.jobs.map (fun j => if j.id = jobId then upd j else j) },
         upd ej)

/-- The controller's `triggerJob`: ownership/not-deleted lookup (a paused
job passes — only `deleted` is excluded), then delegate to
`JobWorkerService.triggerJob`, which re-fetches by id alone and runs
`executeJob`. -/
def triggerJob (db : DB) (userId jobId : Nat) (o : HttpOutcome) (now dur : Nat) :
    Except RepoError DB :=
  match findFirstJob db userId jobId with
  | none => Except.error RepoError.notFound
  | some _ =>
    match workerTriggerJob db jobId o now dur with
    | none => Except.error RepoError.notFound
    | some db' => Except.ok db'

/-! ### Concrete fixtures used by counterexamples and witnesses -/

/-- A concrete active job: daily-at-midnight cron, UTC, with a stored
next-fire instant. -/
def sampleJob : Job :=
  { id := 1, user_id := 10, name := ("ping".data), url := ("https://example.com/ping".data),
    method := ("GET".data), cron_expression := ("0 0 * * *".data), timezone := ("UTC".data),
    headers := [], body := none, description := none, status := JobStatus.active,
    success_count := 0, failure_count := 0, last_execution := none,
    next_execution := some 7, updated_at := 0 }

/-- A one-job database. -/
def sampleDB : DB := { jobs := [sampleJob], executions := [], nextExecId := 1 }

/-- The same job, paused (with the stale `next_execution` a pause leaves
behind, see C2). -/
def pausedJob : Job := { sampleJob with status := JobStatus.paused }

/-- A one-job database whose job is paused. -/
def pausedDB : DB := { jobs := [pausedJob], executions := [], nextExecId := 1 }

/-- An execution row stuck in `running` from before a (re)start. -/
def orphanExec : JobExecution :=
  { id := 5, job_id := 1, executed_at := 0, status := ExecStatus.running,
    duration := none, response_code := none, response_body := none,
    response_headers := none, error_message := none, triggered_by := TriggeredBy.cron }

/-- A database holding the orphaned `running` row. -/
def orphanDB : DB := { jobs := [sampleJob], executions := [orphanExec], nextExecId := 6 }

/-- The sample database after the first (successful) soft delete. -/
def deletedSampleDB : DB :=
  { sampleDB with
    jobs := [{ sampleJob with status := JobStatus.deleted, updated_at := 100 }] }

/-- Length of the stored `response_body` of an execution row (0 when null). -/
def bodyLen (e : JobExecution) : Nat := (e.response_body.map List.length).getD 0

/-- The ten decimal digit characters. -/
def digitChars : List Char := ['0', '1', '2', '3', '4', '5', '6', '7', '8', '9']

/-- The restricted per-field grammar used to settle C5: the forms the
creation-path regex can accept (`*`, a number, `*/n`) plus the range form
`a-b` the spec's grammar additionally claims. -/
inductive GField where
  | star : GField
  | num (n : Nat) : GField
  | step (n : Nat) : GField
  | range (a b : Nat) : GField
deriving DecidableEq, Repr

/-- Render a grammar field as its cron-expression text. -/
def GField.render : GField → Str
  | GField.star => ['*']
  | GField.num n => natToStr n
  | GField.step n => '*' :: '/' :: natToStr n
  | GField.range a b => natToStr a ++ '-' :: natToStr b

/-- Well-formedness of a grammar field for a range `[lo, hi]`, following the
spec: numbers in range, steps with `1 ≤ n ≤ hi`, ranges `a-b` with `a < b`
both in range. -/
def GField.wf (lo hi : Nat) : GField → Prop
  | GField.star => True
  | GField.num n => lo ≤ n ∧ n ≤ hi
  | GField.step n => 1 ≤ n ∧ n ≤ hi
  | GField.range a b => lo ≤ a ∧ a < b ∧ b ≤ hi

/-- Is the field one of the forms the creation-path regex can accept
(everything except a range)? -/
def GField.noRange : GField → Bool
  | GField.range _ _ => false
  | _ => true

/-- Join five rendered fields with single spaces. -/
def renderCron (f1 f2 f3 f4 f5 : Str) : Str :=
  f1 ++ ' ' :: (f2 ++ ' ' :: (f3 ++ ' ' :: (f4 ++ ' ' :: f5)))

/-- Join a list of segments with a single separator character — the inverse
of a single-character split. -/
def joinSep (sep : Char) : List Str → Str
  | [] => []
  | s :: ss =>
    match ss with
    | [] => s
    | _ :: _ => s ++ sep :: joinSep sep ss

/-- Modelled from the amended claim's words, for comparison with the code's
creation path: one field of the amended grammar — `*`, a canonically written
integer in `[lo, hi]`, or `*/n` with `1 ≤ n ≤ hi`. -/
def amendedFieldOk (lo hi : Nat) (f : Str) : Bool :=
  f == ['*'] ||
    (match canonParseNat f with
     | some n => decide (lo ≤ n) && decide (n ≤ hi)
     | none => false) ||
    (f.take 2 == ['*', '/'] &&
      match canonParseNat (f.drop 2) with
      | some n => decide (1 ≤ n) && decide (n ≤ hi)
      | none => false)

/-- Modelled from the amended claim's words: the full amended acceptance
language — after the sanitizing trim, exactly five single-space-separated
fields, each in its per-field grammar, with the bounds minute `0–59`, hour
`0–23`, day `1–31`, month `1–12`, day-of-week `0–6`. -/
def amendedCronAccepts (s : Str) : Bool :=
  match jsSplitChar ' ' (jsTrim s) with
  | [f1, f2, f3, f4, f5] =>
    amendedFieldOk 0 59 f1 && amendedFieldOk 0 23 f2 && amendedFieldOk 1 31 f3 &&
    amendedFieldOk 1 12 f4 && amendedFieldOk 0 6 f5
  | _ => false

/-! ### Lemmas about the string primitives -/

/-- The fuel argument of `natToStrAux` is irrelevant once it exceeds `n`. -/
theorem natToStrAux_fuel_eq (n : Nat) : ∀ f f', n < f → n < f' →
    natToStrAux f n = natToStrAux f' n := by
  induction n using Nat.strong_induction_on with
  | _ n ih =>
    intro f f' hf hf'
    match f, f' with
    | f + 1, f' + 1 =>
      by_cases h10 : n < 10
      · simp [natToStrAux, h10]
      · have hdiv : n / 10 < n := Nat.div_lt_self (by omega) (by omega)
        have h1 : n / 10 < f := by omega
        have h2 : n / 10 < f' := by omega
        simp only [natToStrAux, if_neg h10]
        rw [ih (n / 10) hdiv f f' h1 h2]

/-- Unfolding equation for `natToStr`, hiding the fuel. -/
theorem natToStr_eq (n : Nat) :
    natToStr n = if n < 10 then [Nat.digitChar n]
                 else natToStr (n / 10) ++ [Nat.digitChar (n % 10)] := by
  by_cases h10 : n < 10
  · simp [natToStr, natToStrAux, h10]
  · have hdiv : n / 10 < n := Nat.div_lt_self (by omega) (by omega)
    have hstep : natToStrAux (n + 1) n = natToStrAux n (n / 10) ++ [Nat.digitChar (n % 10)] := by
      simp [natToStrAux, h10]
    rw [show natToStr n = natToStrAux (n + 1) n from rfl, if_neg h10, hstep,
      natToStrAux_fuel_eq (n / 10) n (n / 10 + 1) (by omega) (by omega)]
    rfl

/-- Character facts about the ten digit characters, by enumeration. -/
theorem digitChars_props : ∀ c ∈ digitChars,
    isJsWs c = false ∧ c.isDigit = true ∧ c ≠ '/' ∧ c ≠ '-' ∧ c ≠ ',' ∧
    c ≠ '*' ∧ c ≠ '+' ∧ c ≠ ' ' := by decide

/-- `Nat.digitChar` of a digit is a digit character. -/
theorem digitChar_mem_digitChars : ∀ n, n < 10 → Nat.digitChar n ∈ digitChars := by decide

/-- Every character of `natToStr n` is a digit character. -/
theorem natToStr_subset_digitChars (n : Nat) : ∀ c ∈ natToStr n, c ∈ digitChars := by
  induction n using Nat.strong_induction_on with
  | _ n ih =>
    intro c hc
    rw [natToStr_eq] at hc
    by_cases h10 : n < 10
    · rw [if_pos h10] at hc
      simp only [List.mem_singleton] at hc
      exact hc ▸ digitChar_mem_digitChars n h10
    · rw [if_neg h10] at hc
      rcases List.mem_append.mp hc with hc | hc
      · exact ih (n / 10) (Nat.div_lt_self (by omega) (by omega)) c hc
      · simp only [List.mem_singleton] at hc
        exact hc ▸ digitChar_mem_digitChars (n % 10) (Nat.mod_lt n (by omega))

/-- `natToStr` never renders the empty string. -/
theorem natToStr_ne_nil (n : Nat) : natToStr n ≠ [] := by
  rw [natToStr_eq]
  by_cases h10 : n < 10 <;> simp [h10]

/-- `digitsVal` of an appended digit. -/
theorem digitsVal_append_singleton (l : Str) (c : Char) :
    digitsVal (l ++ [c]) = 10 * digitsVal l + (c.toNat - '0'.toNat) := by
  simp [digitsVal, List.foldl_append]

/-- `Nat.digitChar` inverts to its value for digits. -/
theorem digitChar_toNat : ∀ m, m < 10 → (Nat.digitChar m).toNat - '0'.toNat = m := by decide

/-- Reading back the decimal rendering gives the number. -/
theorem digitsVal_natToStr (n : Nat) : digitsVal (natToStr n) = n := by
  induction n using Nat.strong_induction_on with
  | _ n ih =>
    rw [natToStr_eq]
    by_cases h10 : n < 10
    · rw [if_pos h10]
      simp only [digitsVal, List.foldl_cons, List.foldl_nil, Nat.mul_zero, Nat.zero_add]
      exact digitChar_toNat n h10
    · rw [if_neg h10, digitsVal_append_singleton,
        ih (n / 10) (Nat.div_lt_self (by omega) (by omega)),
        digitChar_toNat (n % 10) (Nat.mod_lt n (by omega))]
      omega

/-- `Nat.digitChar` of a nonzero digit is not `'0'`. -/
theorem digitChar_ne_zero : ∀ m, 1 ≤ m → m < 10 → Nat.digitChar m ≠ '0' := by decide

/-- The leading character of the rendering of a positive number is not
`'0'`. -/
theorem natToStr_head_ne_zero (n : Nat) : 1 ≤ n →
    ∀ c cs, natToStr n = c :: cs → c ≠ '0' := by
  induction n using Nat.strong_induction_on with
  | _ n ih =>
    intro hn c cs hr
    rw [natToStr_eq] at hr
    by_cases h10 : n < 10
    · rw [if_pos h10] at hr
      injection hr with h1 _
      exact h1 ▸ digitChar_ne_zero n hn h10
    · rw [if_neg h10] at hr
      obtain ⟨c', cs', h'⟩ := List.exists_cons_of_ne_nil (natToStr_ne_nil (n / 10))
      rw [h'] at hr
      injection hr with h1 _
      exact h1 ▸ ih (n / 10) (Nat.div_lt_self (by omega) (by omega)) (by omega) c' cs' h'

/-- `canonParseNat` inverts the canonical rendering. -/
theorem canonParseNat_natToStr (n : Nat) : canonParseNat (natToStr n) = some n := by
  rcases Nat.eq_zero_or_pos n with h0 | hpos
  · subst h0; decide
  · obtain ⟨c, cs, hr⟩ := List.exists_cons_of_ne_nil (natToStr_ne_nil n)
    have hc0 : c ≠ '0' := natToStr_head_ne_zero n hpos c cs hr
    have hdig : (c :: cs).all Char.isDigit = true := by
      rw [← hr]
      exact List.all_eq_true.mpr (fun x hx =>
        (digitChars_props x (natToStr_subset_digitChars n x hx)).2.1)
    rw [hr]
    simp only [canonParseNat, if_neg hc0, hdig, if_true]
    rw [← hr, digitsVal_natToStr]

/-- `trimRight` decomposition: a list is its `trimRight` followed by a
whitespace suffix. -/
theorem trimRight_decomp (l : Str) :
    ∃ w, l = trimRight l ++ w ∧ ∀ c ∈ w, isJsWs c = true := by
  refine ⟨(l.reverse.takeWhile isJsWs).reverse, ?_, ?_⟩
  · conv_lhs => rw [← l.reverse_reverse,
      ← List.takeWhile_append_dropWhile (p := isJsWs) (l := l.reverse), List.reverse_append]
    rfl
  · intro c hc
    rw [List.mem_reverse] at hc
    exact List.mem_takeWhile_imp hc

/-- `trimRight` is the identity when the last character is not whitespace. -/
theorem trimRight_eq_self (l : Str) (h : ∀ c, l.getLast? = some c → isJsWs c = false) :
    trimRight l = l := by
  rcases List.eq_nil_or_concat l with rfl | ⟨l', c, rfl⟩
  · rfl
  · have hc : isJsWs c = false := h c (by simp)
    unfold trimRight
    rw [List.concat_eq_append, List.reverse_append, List.reverse_singleton,
      List.singleton_append, List.dropWhile_cons, hc]
    simp

/-- `jsTrim` is the identity when neither end is whitespace. -/
theorem jsTrim_eq_self (l : Str) (hh : ∀ c, l.head? = some c → isJsWs c = false)
    (hl : ∀ c, l.getLast? = some c → isJsWs c = false) : jsTrim l = l := by
  unfold jsTrim
  have hdrop : l.dropWhile isJsWs = l := by
    cases l with
    | nil => rfl
    | cons c t => rw [List.dropWhile_cons, hh c rfl]; simp
  rw [hdrop]
  exact trimRight_eq_self l hl

/-- `jsTrim` is the identity on whitespace-free lists. -/
theorem jsTrim_eq_self_of_all (l : Str) (h : ∀ c ∈ l, isJsWs c = false) : jsTrim l = l := by
  apply jsTrim_eq_self
  · intro c hc
    cases l with
    | nil => simp at hc
    | cons a t =>
      simp only [List.head?_cons, Option.some.injEq] at hc
      exact hc ▸ h a (List.mem_cons_self a t)
  · intro c hc
    rcases List.eq_nil_or_concat l with rfl | ⟨l', a, rfl⟩
    · simp at hc
    · rw [List.concat_eq_append, List.getLast?_concat] at hc
      injection hc with hc
      exact hc ▸ h a (by simp)

/-- `jsParseInt` on a string led by a digit character reduces to the digit
prefix parse. -/
theorem jsParseInt_cons_digit (c : Char) (r : Str) (hd : c ∈ digitChars) :
    jsParseInt (c :: r) = (parseDigitsPrefix (c :: r)).map (fun m => (m : Int)) := by
  have h := digitChars_props c hd
  unfold jsParseInt
  rw [List.dropWhile_cons, h.1]
  simp [h.2.2.2.1, h.2.2.2.2.2.2.1]

/-- Taking the digit prefix of a rendering followed by a non-digit suffix. -/
theorem takeWhile_digits_append (n : Nat) (x : Str)
    (hx : ∀ c, x.head? = some c → c.isDigit = false) :
    (natToStr n ++ x).takeWhile Char.isDigit = natToStr n := by
  rw [List.takeWhile_append]
  have hall : (natToStr n).takeWhile Char.isDigit = natToStr n :=
    List.takeWhile_eq_self_iff.mpr (fun c hc =>
      (digitChars_props c (natToStr_subset_digitChars n c hc)).2.1)
  rw [hall, if_pos rfl]
  have hx0 : x.takeWhile Char.isDigit = [] := by
    cases x with
    | nil => rfl
    | cons d t => rw [List.takeWhile_cons, hx d rfl]; rfl
  rw [hx0, List.append_nil]

/-- `parseInt` reads the rendering of `n` out of any string that continues
with a non-digit (or nothing). -/
theorem jsParseInt_natToStr_append (n : Nat) (x : Str)
    (hx : ∀ c, x.head? = some c → c.isDigit = false) :
    jsParseInt (natToStr n ++ x) = some ((n : Int)) := by
  obtain ⟨c, cs, hr⟩ := List.exists_cons_of_ne_nil (natToStr_ne_nil n)
  have hmem : c ∈ digitChars :=
    natToStr_subset_digitChars n c (by rw [hr]; exact List.mem_cons_self _ _)
  have hred : jsParseInt (natToStr n ++ x) =
      (parseDigitsPrefix (natToStr n ++ x)).map (fun m => (m : Int)) := by
    rw [hr, List.cons_append]
    exact jsParseInt_cons_digit c (cs ++ x) hmem
  rw [hred]
  unfold parseDigitsPrefix
  rw [takeWhile_digits_append n x hx]
  simp [natToStr_ne_nil n, digitsVal_natToStr n]

/-- `parseInt` inverts the canonical rendering. -/
theorem jsParseInt_natToStr (n : Nat) : jsParseInt (natToStr n) = some (n : Int) := by
  have h := jsParseInt_natToStr_append n [] (fun c hc => by simp at hc)
  simpa using h

/-- The rendering of a natural number is whitespace-free, hence trim-stable. -/
theorem jsTrim_natToStr (n : Nat) : jsTrim (natToStr n) = natToStr n :=
  jsTrim_eq_self_of_all _ (fun c hc =>
    (digitChars_props c (natToStr_subset_digitChars n c hc)).1)

/-- `intToStr` on a natural-number cast. -/
theorem intToStr_natCast (n : Nat) : intToStr (n : Int) = natToStr n := by
  unfold intToStr
  rw [if_neg (Int.not_lt.mpr (Int.natCast_nonneg n))]
  simp

/-- `isValidNumber` accepts a canonical in-range rendering. -/
theorem isValidNumber_natToStr (n : Nat) (lo hi : Int) (h1 : lo ≤ (n : Int))
    (h2 : (n : Int) ≤ hi) : isValidNumber (natToStr n) lo hi = true := by
  unfold isValidNumber
  rw [jsParseInt_natToStr n]
  simp [h1, h2, intToStr_natCast, jsTrim_natToStr]

/-- `splitP` always yields at least one segment. -/
theorem splitP_ne_nil (P : Char → Bool) (l : Str) : splitP P l ≠ [] := by
  cases l with
  | nil => simp [splitP]
  | cons c cs =>
    simp only [splitP]
    cases hs : splitP P cs with
    | nil => simp
    | cons s ss => by_cases h : P c <;> simp [h]

/-- A separator-free list is a single segment. -/
theorem splitP_eq_single (P : Char → Bool) (l : Str) (h : ∀ c ∈ l, P c = false) :
    splitP P l = [l] := by
  induction l with
  | nil => rfl
  | cons c cs ih =>
    have hc : P c = false := h c (List.mem_cons_self _ _)
    have ih' := ih (fun x hx => h x (List.mem_cons_of_mem _ hx))
    simp only [splitP, ih']
    simp [hc]

/-- Splitting peels off a separator-free prefix before a separator. -/
theorem splitP_append_cons (P : Char → Bool) (a : Str) (sep : Char) (rest : Str)
    (ha : ∀ c ∈ a, P c = false) (hsep : P sep = true) :
    splitP P (a ++ sep :: rest) = a :: splitP P rest := by
  induction a with
  | nil =>
    simp only [List.nil_append, splitP]
    cases hs : splitP P rest with
    | nil => exact absurd hs (splitP_ne_nil P rest)
    | cons s ss => simp [hsep]
  | cons c a' ih =>
    have hc : P c = false := ha c (List.mem_cons_self _ _)
    have ih' := ih (fun x hx => ha x (List.mem_cons_of_mem _ hx))
    simp only [List.cons_append, splitP, List.append_eq]
    rw [ih']
    simp [hc]

/-- The first segment of a split is the separator-free prefix. -/
theorem splitP_getD_zero (P : Char → Bool) (l : Str) :
    (splitP P l).getD 0 [] = l.takeWhile (fun c => !P c) := by
  induction l with
  | nil => rfl
  | cons c cs ih =>
    simp only [splitP]
    cases hs : splitP P cs with
    | nil => exact absurd hs (splitP_ne_nil P cs)
    | cons s ss =>
      rw [hs] at ih
      simp only [List.getD_cons_zero] at ih
      by_cases h : P c
      · simp [h, List.takeWhile_cons]
      · simp [h, List.takeWhile_cons, ih]

/-- The second segment of a split of `*/…`. -/
theorem splitP_star_slash_getD_one (P : Char → Bool) (r : Str)
    (hstar : P '*' = false) (hslash : P '/' = true) :
    (splitP P ('*' :: '/' :: r)).getD 1 [] = r.takeWhile (fun c => !P c) := by
  have h2 : splitP P ('*' :: '/' :: r) = ['*'] :: splitP P r := by
    cases hs : splitP P r with
    | nil => exact absurd hs (splitP_ne_nil P r)
    | cons s ss => simp [splitP, hs, hslash, hstar]
  rw [h2, List.getD_cons_succ, splitP_getD_zero]

/-- The head of a `dropWhile` residue fails the predicate. -/
theorem dropWhile_head_false (p : Char → Bool) :
    ∀ (l : Str) (x : Char) (y : Str), l.dropWhile p = x :: y → p x = false := by
  intro l
  induction l with
  | nil => intro x y h; simp at h
  | cons c cs ih =>
    intro x y h
    rw [List.dropWhile_cons] at h
    cases hc : p c with
    | true =>
      rw [hc] at h
      simp only [if_true] at h
      exact ih x y h
    | false =>
      rw [hc] at h
      simp only [Bool.false_eq_true, if_false, List.cons.injEq] at h
      exact h.1 ▸ hc

/-- If `takeWhile` does not exhaust the list, the list continues with a
failing element right after the prefix. -/
theorem takeWhile_ne_self_decomp (p : Char → Bool) (l : Str) (h : l.takeWhile p ≠ l) :
    ∃ x y, l = l.takeWhile p ++ x :: y ∧ p x = false := by
  have hd : l.dropWhile p ≠ [] := by
    intro h0
    apply h
    have happ := List.takeWhile_append_dropWhile (p := p) (l := l)
    rw [h0, List.append_nil] at happ
    exact happ
  obtain ⟨x, y, hxy⟩ := List.exists_cons_of_ne_nil hd
  refine ⟨x, y, ?_, dropWhile_head_false p l x y hxy⟩
  rw [← hxy]
  exact (List.takeWhile_append_dropWhile (p := p) (l := l)).symm

/-- `takeWhile` through an all-passing prefix. -/
theorem takeWhile_append_all (p : Char → Bool) (a b : Str) (ha : ∀ c ∈ a, p c = true) :
    (a ++ b).takeWhile p = a ++ b.takeWhile p := by
  rw [List.takeWhile_append, List.takeWhile_eq_self_iff.mpr ha, if_pos rfl]

/-- `takeWhile` stops at a failing element after an all-passing prefix. -/
theorem takeWhile_append_stop (p : Char → Bool) (a : Str) (x : Char) (y : Str)
    (ha : ∀ c ∈ a, p c = true) (hx : p x = false) :
    (a ++ x :: y).takeWhile p = a := by
  rw [takeWhile_append_all p a _ ha, List.takeWhile_cons, hx]
  simp

/-- Strengthening the predicate of a `takeWhile` shortens it to a prefix;
the first dropped element distinguishes the two predicates. -/
theorem takeWhile_mono_decomp (p q : Char → Bool) (hpq : ∀ c, p c = true → q c = true)
    (l : Str) :
    ∃ d, l.takeWhile q = l.takeWhile p ++ d ∧
      ∀ c, d.head? = some c → (p c = false ∧ q c = true) := by
  induction l with
  | nil => exact ⟨[], rfl, by simp⟩
  | cons c cs ih =>
    cases hp : p c with
    | true =>
      have hq := hpq c hp
      obtain ⟨d, hd, hhead⟩ := ih
      exact ⟨d, by simp [List.takeWhile_cons, hp, hq, hd], hhead⟩
    | false =>
      cases hq : q c with
      | true =>
        refine ⟨c :: cs.takeWhile q, by simp [List.takeWhile_cons, hp, hq], ?_⟩
        intro x hx
        simp only [List.head?_cons, Option.some.injEq] at hx
        subst hx
        exact ⟨hp, hq⟩
      | false => exact ⟨[], by simp [List.takeWhile_cons, hp, hq], by simp⟩

/-- `contains` is false when the element is absent. -/
theorem contains_false_of_ne (l : Str) (a : Char) (h : ∀ c ∈ l, c ≠ a) :
    l.contains a = false := by
  rw [Bool.eq_false_iff]
  intro hcon
  obtain ⟨a', ha', heq⟩ := List.contains_iff_exists_mem_beq.mp hcon
  rw [beq_iff_eq] at heq
  exact h a' ha' heq.symm

/-- `contains` is true at a member. -/
theorem contains_true_of_mem (l : Str) (a : Char) (h : a ∈ l) : l.contains a = true :=
  List.contains_iff_exists_mem_beq.mpr ⟨a, h, beq_self_eq_true a⟩

/-- No rendered field is empty. -/
theorem GField.render_ne_nil (g : GField) : g.render ≠ [] := by
  cases g <;> simp [GField.render, natToStr_ne_nil]

/-- Rendered fields contain no whitespace. -/
theorem GField.render_no_ws (g : GField) : ∀ c ∈ g.render, isJsWs c = false := by
  intro c hc
  cases g with
  | star =>
    simp only [GField.render, List.mem_singleton] at hc
    subst hc; decide
  | num n => exact (digitChars_props c (natToStr_subset_digitChars n c hc)).1
  | step n =>
    simp only [GField.render, List.mem_cons] at hc
    rcases hc with rfl | rfl | hc
    · decide
    · decide
    · exact (digitChars_props c (natToStr_subset_digitChars n c hc)).1
  | range a b =>
    simp only [GField.render, List.mem_append, List.mem_cons] at hc
    rcases hc with hc | rfl | hc
    · exact (digitChars_props c (natToStr_subset_digitChars a c hc)).1
    · decide
    · exact (digitChars_props c (natToStr_subset_digitChars b c hc)).1

/-- `joiNumAccepts` accepts a canonical in-range numeral. -/
theorem joiNumAccepts_natToStr (lo hi n : Nat) (h1 : lo ≤ n) (h2 : n ≤ hi) :
    joiNumAccepts lo hi (natToStr n) = true := by
  simp [joiNumAccepts, canonParseNat_natToStr n, h1, h2]

/-- The Joi regex field language on a rendered grammar field is exactly
"not a range". -/
theorem joiFieldAccepts_render (lo hi : Nat) (hlo : lo ≤ 1) (g : GField) (hwf : g.wf lo hi) :
    joiFieldAccepts lo hi g.render = g.noRange := by
  cases g with
  | star => simp [joiFieldAccepts, GField.render, GField.noRange]
  | num n =>
    obtain ⟨h1, h2⟩ := hwf
    simp [joiFieldAccepts, GField.render, GField.noRange, joiNumAccepts_natToStr lo hi n h1 h2]
  | step n =>
    obtain ⟨h1, h2⟩ := hwf
    have htake : (GField.render (GField.step n)).take 2 = ['*', '/'] := rfl
    have hdrop : (GField.render (GField.step n)).drop 2 = natToStr n := rfl
    simp [joiFieldAccepts, htake, hdrop, GField.noRange,
      joiNumAccepts_natToStr lo hi n (Nat.le_trans hlo h1) (by omega)]
  | range a b =>
    obtain ⟨h1, h2, h3⟩ := hwf
    obtain ⟨c, cs, hr⟩ := List.exists_cons_of_ne_nil (natToStr_ne_nil a)
    have hcmem : c ∈ digitChars :=
      natToStr_subset_digitChars a c (by rw [hr]; exact List.mem_cons_self _ _)
    have hprops := digitChars_props c hcmem
    have hrender : GField.render (GField.range a b) = c :: (cs ++ '-' :: natToStr b) := by
      simp [GField.render, hr]
    have hA : (GField.render (GField.range a b) == ['*']) = false := by
      rw [hrender]
      apply beq_eq_false_iff_ne.mpr
      intro h
      injection h with hhead _
      exact hprops.2.2.2.2.2.1 hhead
    have hB : joiNumAccepts lo hi (GField.render (GField.range a b)) = false := by
      rw [hrender]
      by_cases hc0 : c = '0'
      · simp [joiNumAccepts, canonParseNat, hc0]
      · have hdig : ((c :: (cs ++ '-' :: natToStr b)).all Char.isDigit) = false := by
          rw [Bool.eq_false_iff]
          intro hall
          have hmem : ('-' : Char) ∈ c :: (cs ++ '-' :: natToStr b) := by simp
          have := List.all_eq_true.mp hall '-' hmem
          simp [Char.isDigit] at this
        simp [joiNumAccepts, canonParseNat, hc0, hdig]
    have hC : ((GField.render (GField.range a b)).take 2 == ['*', '/']) = false := by
      rw [hrender]
      apply beq_eq_false_iff_ne.mpr
      intro h
      rw [show (c :: (cs ++ '-' :: natToStr b)).take 2 =
        c :: (cs ++ '-' :: natToStr b).take 1 from rfl] at h
      injection h with hhead _
      exact hprops.2.2.2.2.2.1 hhead
    simp [joiFieldAccepts, hA, hB, hC, GField.noRange]

/-- `validateCronPart` accepts a rendered non-range grammar field. -/
theorem validateCronPart_render (lo hi : Nat) (hlo : lo ≤ 1) (g : GField) (hwf : g.wf lo hi)
    (hnr : g.noRange = true) :
    validateCronPart g.render (lo : Int) (hi : Int) = true := by
  cases g with
  | star => rfl
  | num n =>
    obtain ⟨h1, h2⟩ := hwf
    have hsub := natToStr_subset_digitChars n
    have hslash : ('/' : Char) ∉ natToStr n := fun hm =>
      (digitChars_props _ (hsub _ hm)).2.2.1 rfl
    have hdash : ('-' : Char) ∉ natToStr n := fun hm =>
      (digitChars_props _ (hsub _ hm)).2.2.2.1 rfl
    have hcomma : (',' : Char) ∉ natToStr n := fun hm =>
      (digitChars_props _ (hsub _ hm)).2.2.2.2.1 rfl
    have hstar : (natToStr n == ['*']) = false := by
      obtain ⟨c, cs, hr⟩ := List.exists_cons_of_ne_nil (natToStr_ne_nil n)
      rw [hr]
      apply beq_eq_false_iff_ne.mpr
      intro h
      injection h with hhead _
      exact (digitChars_props c (hsub c (by rw [hr]; exact List.mem_cons_self _ _))).2.2.2.2.2.1
        hhead
    have hvalid : isValidNumber (natToStr n) (lo : Int) (hi : Int) = true :=
      isValidNumber_natToStr n lo hi (by exact_mod_cast h1) (by exact_mod_cast h2)
    simp [validateCronPart, GField.render, hstar, hslash, hdash, hcomma, hvalid]
  | step n =>
    obtain ⟨h1, h2⟩ := hwf
    have hstar : (GField.render (GField.step n) == ['*']) = false := by
      apply beq_eq_false_iff_ne.mpr
      simp [GField.render]
    have hslash : ('/' : Char) ∈ GField.render (GField.step n) := by simp [GField.render]
    have hds : ∀ c ∈ natToStr n, (fun c => c == '/') c = false := by
      intro c hc
      simp only [beq_eq_false_iff_ne]
      exact (digitChars_props c (natToStr_subset_digitChars n c hc)).2.2.1
    have hsplit : jsSplitChar '/' (GField.render (GField.step n)) = [['*'], natToStr n] := by
      have happ : GField.render (GField.step n) = ['*'] ++ '/' :: natToStr n := rfl
      rw [happ]
      unfold jsSplitChar
      rw [splitP_append_cons _ _ _ _ (by intro c hc; simp at hc; simp [hc]) (by simp),
        splitP_eq_single _ _ hds]
    have hvalid : isValidNumber (natToStr n) 1 (hi : Int) = true :=
      isValidNumber_natToStr n 1 hi (by exact_mod_cast h1) (by exact_mod_cast h2)
    simp [validateCronPart, hstar, hslash, hsplit, hvalid]
  | range a b => simp [GField.noRange] at hnr

/-- Every decimal digit character is in `digitChars`. -/
theorem isDigit_mem_digitChars (c : Char) (h : c.isDigit = true) : c ∈ digitChars := by
  simp only [Char.isDigit, ge_iff_le, Bool.and_eq_true, decide_eq_true_eq] at h
  obtain ⟨h1, h2⟩ := h
  have h1' : 48 ≤ c.toNat := h1
  have h2' : c.toNat ≤ 57 := h2
  have henum : c.toNat = 48 ∨ c.toNat = 49 ∨ c.toNat = 50 ∨ c.toNat = 51 ∨ c.toNat = 52 ∨
      c.toNat = 53 ∨ c.toNat = 54 ∨ c.toNat = 55 ∨ c.toNat = 56 ∨ c.toNat = 57 := by omega
  have hchar : ∀ (d : Char), c.toNat = d.toNat → c = d := by
    intro d hd
    apply Char.ext
    apply UInt32.ext
    exact hd
  rcases henum with h | h | h | h | h | h | h | h | h | h
  · rw [hchar '0' h]; decide
  · rw [hchar '1' h]; decide
  · rw [hchar '2' h]; decide
  · rw [hchar '3' h]; decide
  · rw [hchar '4' h]; decide
  · rw [hchar '5' h]; decide
  · rw [hchar '6' h]; decide
  · rw [hchar '7' h]; decide
  · rw [hchar '8' h]; decide
  · rw [hchar '9' h]; decide

/-- The digit-accumulating fold never decreases its accumulator. -/
theorem digitsVal_foldl_ge (l : Str) : ∀ a : Nat,
    a ≤ l.foldl (fun acc c => 10 * acc + (c.toNat - '0'.toNat)) a := by
  induction l with
  | nil => intro a; exact Nat.le_refl a
  | cons c t ih =>
    intro a
    rw [List.foldl_cons]
    exact Nat.le_trans (by omega) (ih (10 * a + (c.toNat - '0'.toNat)))

/-- A digit string with a nonzero leading digit has a positive value. -/
theorem digitsVal_pos (c : Char) (cs : Str) (hc : c ∈ digitChars) (h0 : c ≠ '0') :
    1 ≤ digitsVal (c :: cs) := by
  have hv : 1 ≤ c.toNat - '0'.toNat := by
    have hall : ∀ d ∈ digitChars, d ≠ '0' → 1 ≤ d.toNat - '0'.toNat := by decide
    exact hall c hc h0
  unfold digitsVal
  rw [List.foldl_cons]
  exact Nat.le_trans (by omega) (digitsVal_foldl_ge cs (10 * 0 + (c.toNat - '0'.toNat)))

/-- On digit characters, `Nat.digitChar` inverts the value map, and the value
is a digit. -/
theorem digitChars_val_roundtrip : ∀ d ∈ digitChars,
    Nat.digitChar (d.toNat - '0'.toNat) = d ∧ d.toNat - '0'.toNat < 10 := by decide

/-- Rendering the value of a canonical digit string (nonempty, all digit
characters, no leading `'0'` unless it is the single digit) recovers the
string. -/
theorem natToStr_digitsVal (f : Str) : (∀ c ∈ f, c ∈ digitChars) →
    (∀ c cs, f = c :: cs → c ≠ '0' ∨ cs = []) → f ≠ [] →
    natToStr (digitsVal f) = f := by
  induction f using List.reverseRecOn with
  | nil => intro _ _ h; exact absurd rfl h
  | append_singleton f' d ih =>
    intro hdig hlead _
    have hd : d ∈ digitChars := hdig d (by simp)
    have hdrt := digitChars_val_roundtrip d hd
    rw [digitsVal_append_singleton]
    cases hf' : f' with
    | nil =>
      have harg : 10 * digitsVal ([] : Str) + (d.toNat - '0'.toNat) = d.toNat - '0'.toNat := by
        simp [digitsVal]
      rw [harg, natToStr_eq, if_pos hdrt.2, hdrt.1]
      rfl
    | cons c' cs' =>
      subst hf'
      have hc'mem : c' ∈ digitChars := hdig c' (by simp)
      have hc'0 : c' ≠ '0' := by
        rcases hlead c' (cs' ++ [d]) (by simp) with h | h
        · exact h
        · exact absurd h (by simp)
      have hpos : 1 ≤ digitsVal (c' :: cs') := digitsVal_pos c' cs' hc'mem hc'0
      have hlt : d.toNat - '0'.toNat < 10 := hdrt.2
      have h10 : ¬(10 * digitsVal (c' :: cs') + (d.toNat - '0'.toNat) < 10) := by omega
      rw [natToStr_eq, if_neg h10]
      have hdiv : (10 * digitsVal (c' :: cs') + (d.toNat - '0'.toNat)) / 10
          = digitsVal (c' :: cs') := by omega
      have hmod : (10 * digitsVal (c' :: cs') + (d.toNat - '0'.toNat)) % 10
          = d.toNat - '0'.toNat := by omega
      rw [hdiv, hmod, hdrt.1]
      have hrec : natToStr (digitsVal (c' :: cs')) = c' :: cs' := by
        apply ih
        · intro x hx
          exact hdig x (List.mem_append_left _ hx)
        · intro x xs hxs
          injection hxs with hx1 _
          exact Or.inl (hx1 ▸ hc'0)
        · simp
      rw [hrec]

/-- `canonParseNat` succeeds only on the canonical rendering of its value:
the converse of `canonParseNat_natToStr`. -/
theorem canonParseNat_inv (f : Str) (n : Nat) (h : canonParseNat f = some n) :
    f = natToStr n := by
  cases f with
  | nil => simp [canonParseNat] at h
  | cons c cs =>
    simp only [canonParseNat] at h
    by_cases hc0 : c = '0'
    · rw [if_pos hc0] at h
      by_cases hcs : cs = []
      · rw [if_pos hcs] at h
        injection h with h
        rw [hc0, hcs, ← h]
        rfl
      · rw [if_neg hcs] at h
        exact absurd h (by simp)
    · rw [if_neg hc0] at h
      cases hall : (c :: cs).all Char.isDigit with
      | false =>
        rw [hall] at h
        exact absurd h (by simp)
      | true =>
        rw [hall, if_pos rfl] at h
        injection h with h
        rw [← h]
        exact (natToStr_digitsVal (c :: cs)
          (fun x hx => isDigit_mem_digitChars x (List.all_eq_true.mp hall x hx))
          (fun x xs hxs => by injection hxs with hx1 _; exact Or.inl (hx1 ▸ hc0))
          (by simp)).symm

/-- `joinSep` absorbs a head character of its first segment. -/
theorem joinSep_cons_head (sep c : Char) (s : Str) (ss : List Str) :
    joinSep sep ((c :: s) :: ss) = c :: joinSep sep (s :: ss) := by
  cases ss with
  | nil => rfl
  | cons t ts => rfl

/-- Joining after a single-character split restores the original string. -/
theorem joinSep_jsSplitChar (sep : Char) (l : Str) : joinSep sep (jsSplitChar sep l) = l := by
  unfold jsSplitChar
  induction l with
  | nil => rfl
  | cons c cs ih =>
    simp only [splitP]
    cases hs : splitP (· == sep) cs with
    | nil => exact absurd hs (splitP_ne_nil _ _)
    | cons s ss =>
      rw [hs] at ih
      show joinSep sep (if (c == sep) = true then [] :: s :: ss else (c :: s) :: ss) = c :: cs
      cases hc : (c == sep) with
      | true =>
        rw [if_pos rfl]
        show [] ++ sep :: joinSep sep (s :: ss) = c :: cs
        rw [List.nil_append, ih, show c = sep from beq_iff_eq.mp hc]
      | false =>
        rw [if_neg (by simp [hc])]
        rw [joinSep_cons_head, ih]

/-- The rendering of a natural number is never the string `*`. -/
theorem natToStr_beq_star (n : Nat) : ((natToStr n : Str) == ['*']) = false := by
  obtain ⟨c, cs, hr⟩ := List.exists_cons_of_ne_nil (natToStr_ne_nil n)
  have hmem : c ∈ digitChars :=
    natToStr_subset_digitChars n c (by rw [hr]; exact List.mem_cons_self _ _)
  rw [hr]
  apply beq_eq_false_iff_ne.mpr
  intro h
  injection h with hhead _
  exact (digitChars_props c hmem).2.2.2.2.2.1 hhead

/-- The rendering of a natural number never starts with `*/`. -/
theorem natToStr_take2_ne (n : Nat) : ((natToStr n).take 2 == ['*', '/']) = false := by
  obtain ⟨c, cs, hr⟩ := List.exists_cons_of_ne_nil (natToStr_ne_nil n)
  have hmem : c ∈ digitChars :=
    natToStr_subset_digitChars n c (by rw [hr]; exact List.mem_cons_self _ _)
  rw [hr, show (c :: cs).take 2 = c :: cs.take 1 from rfl]
  apply beq_eq_false_iff_ne.mpr
  intro h
  injection h with hhead _
  exact (digitChars_props c hmem).2.2.2.2.2.1 hhead

/-- The exact value of `isValidNumber` on a canonical rendering. -/
theorem isValidNumber_natToStr_eq (n : Nat) (lo hi : Int) :
    isValidNumber (natToStr n) lo hi =
      (decide (lo ≤ (n : Int)) && decide ((n : Int) ≤ hi)) := by
  unfold isValidNumber
  rw [jsParseInt_natToStr n]
  simp [intToStr_natCast, jsTrim_natToStr]

/-- The exact value of `validateCronPart` on a canonical rendering: the
bounds check alone. -/
theorem validateCronPart_natToStr_eq (n lo hi : Nat) :
    validateCronPart (natToStr n) (lo : Int) (hi : Int) =
      (decide (lo ≤ n) && decide (n ≤ hi)) := by
  have hsub := natToStr_subset_digitChars n
  have hstar : ((natToStr n : Str) == ['*']) = false := natToStr_beq_star n
  have hc1 : (natToStr n).contains '/' = false :=
    contains_false_of_ne _ _ (fun c hc => (digitChars_props c (hsub c hc)).2.2.1)
  have hc2 : (natToStr n).contains '-' = false :=
    contains_false_of_ne _ _ (fun c hc => (digitChars_props c (hsub c hc)).2.2.2.1)
  have hc3 : (natToStr n).contains ',' = false :=
    contains_false_of_ne _ _ (fun c hc => (digitChars_props c (hsub c hc)).2.2.2.2.1)
  have hred : validateCronPart (natToStr n) (lo : Int) (hi : Int) =
      isValidNumber (natToStr n) (lo : Int) (hi : Int) := by
    unfold validateCronPart
    rw [hstar, hc1, hc2, hc3]
    rfl
  rw [hred, isValidNumber_natToStr_eq]
  congr 1
  · exact decide_eq_decide.mpr Nat.cast_le
  · exact decide_eq_decide.mpr Nat.cast_le

/-- The exact value of `validateCronPart` on a rendered step field: the
step-bounds check alone (the lower bound is 1 regardless of the field). -/
theorem validateCronPart_step_eq (n lo hi : Nat) :
    validateCronPart ('*' :: '/' :: natToStr n) (lo : Int) (hi : Int) =
      (decide (1 ≤ n) && decide (n ≤ hi)) := by
  have hstar : (('*' :: '/' :: natToStr n : Str) == ['*']) = false := by
    apply beq_eq_false_iff_ne.mpr
    simp
  have hslash : ('/' : Char) ∈ ('*' :: '/' :: natToStr n : Str) := by simp
  have hds : ∀ c ∈ natToStr n, (fun c => c == '/') c = false := by
    intro c hc
    simp only [beq_eq_false_iff_ne]
    exact (digitChars_props c (natToStr_subset_digitChars n c hc)).2.2.1
  have hsplit : jsSplitChar '/' ('*' :: '/' :: natToStr n) = [['*'], natToStr n] := by
    have happ : ('*' :: '/' :: natToStr n : Str) = ['*'] ++ '/' :: natToStr n := rfl
    rw [happ]
    unfold jsSplitChar
    rw [splitP_append_cons _ _ _ _ (by intro c hc; simp at hc; simp [hc]) (by simp),
      splitP_eq_single _ _ hds]
  have heq : isValidNumber (natToStr n) 1 (hi : Int) =
      (decide (1 ≤ n) && decide (n ≤ hi)) := by
    rw [isValidNumber_natToStr_eq]
    congr 1
    · exact decide_eq_decide.mpr (by constructor <;> intro h <;> exact_mod_cast h)
    · exact decide_eq_decide.mpr Nat.cast_le
  cases hX : (decide (1 ≤ n) && decide (n ≤ hi)) with
  | true => simp [validateCronPart, hstar, hslash, hsplit, heq, hX]
  | false => simp [validateCronPart, hstar, hslash, hsplit, heq, hX]

/-- The exact value of the amended field grammar on a canonical rendering. -/
theorem amendedFieldOk_natToStr_eq (lo hi n : Nat) :
    amendedFieldOk lo hi (natToStr n) = (decide (lo ≤ n) && decide (n ≤ hi)) := by
  unfold amendedFieldOk
  rw [natToStr_beq_star n, canonParseNat_natToStr n, natToStr_take2_ne n]
  simp

/-- The exact value of the amended field grammar on a step field. -/
theorem amendedFieldOk_step_eq (lo hi n : Nat) :
    amendedFieldOk lo hi ('*' :: '/' :: natToStr n) =
      (decide (1 ≤ n) && decide (n ≤ hi)) := by
  have hstar : (('*' :: '/' :: natToStr n : Str) == ['*']) = false := by
    apply beq_eq_false_iff_ne.mpr
    simp
  have hcanon : canonParseNat ('*' :: '/' :: natToStr n) = none := by
    simp [canonParseNat]
  unfold amendedFieldOk
  rw [hstar, hcanon,
    show List.take 2 ('*' :: '/' :: natToStr n) = ['*', '/'] from rfl,
    show List.drop 2 ('*' :: '/' :: natToStr n) = natToStr n from rfl,
    canonParseNat_natToStr n]
  simp

/-- Every string of the amended field grammar is in the Joi regex field
language (for the actual field bounds, whose lower end is at most 1). -/
theorem amendedFieldOk_mono (lo hi : Nat) (hlo : lo ≤ 1) (f : Str)
    (h : amendedFieldOk lo hi f = true) : joiFieldAccepts lo hi f = true := by
  unfold amendedFieldOk at h
  unfold joiFieldAccepts
  simp only [Bool.or_eq_true, Bool.and_eq_true] at h ⊢
  rcases h with (h | h) | ⟨ht, hn⟩
  · exact Or.inl (Or.inl h)
  · exact Or.inl (Or.inr h)
  · refine Or.inr ⟨ht, ?_⟩
    show joiNumAccepts lo hi (f.drop 2) = true
    unfold joiNumAccepts
    cases hc : canonParseNat (f.drop 2) with
    | none =>
      rw [hc] at hn
      exact absurd hn (by simp)
    | some m =>
      rw [hc] at hn
      simp only [Bool.and_eq_true, decide_eq_true_eq] at hn
      simp only [Bool.and_eq_true, decide_eq_true_eq]
      exact ⟨Nat.le_trans hlo hn.1, hn.2⟩

/-- Structure of a string accepted by one Joi regex field: `*`, a canonical
in-range numeral, or `*/` plus a canonical in-range numeral. -/
theorem joiFieldAccepts_struct (lo hi : Nat) (f : Str) (h : joiFieldAccepts lo hi f = true) :
    f = ['*'] ∨ (∃ n, lo ≤ n ∧ n ≤ hi ∧ f = natToStr n) ∨
      (∃ n, lo ≤ n ∧ n ≤ hi ∧ f = '*' :: '/' :: natToStr n) := by
  unfold joiFieldAccepts at h
  simp only [Bool.or_eq_true, Bool.and_eq_true, beq_iff_eq] at h
  rcases h with (h | h) | ⟨ht, hn⟩
  · exact Or.inl h
  · unfold joiNumAccepts at h
    cases hc : canonParseNat f with
    | none =>
      rw [hc] at h
      exact absurd h (by simp)
    | some m =>
      rw [hc] at h
      simp only [Bool.and_eq_true, decide_eq_true_eq] at h
      exact Or.inr (Or.inl ⟨m, h.1, h.2, canonParseNat_inv f m hc⟩)
  · unfold joiNumAccepts at hn
    cases hc : canonParseNat (f.drop 2) with
    | none =>
      rw [hc] at hn
      exact absurd hn (by simp)
    | some m =>
      rw [hc] at hn
      simp only [Bool.and_eq_true, decide_eq_true_eq] at hn
      have hf : f = '*' :: '/' :: natToStr m := by
        have h2 := List.take_append_drop 2 f
        rw [ht, canonParseNat_inv (f.drop 2) m hc] at h2
        exact h2.symm
      exact Or.inr (Or.inr ⟨m, hn.1, hn.2, hf⟩)

/-- On a Joi-accepted field, `validateCronPart` computes exactly the amended
field grammar (and the field is nonempty and whitespace-free). -/
theorem joiField_agree (lo hi : Nat) (hlo : lo ≤ 1) (f : Str)
    (hj : joiFieldAccepts lo hi f = true) :
    f ≠ [] ∧ (∀ c ∈ f, isJsWs c = false) ∧
      validateCronPart f (lo : Int) (hi : Int) = amendedFieldOk lo hi f := by
  rcases joiFieldAccepts_struct lo hi f hj with rfl | ⟨n, _, _, rfl⟩ | ⟨n, _, _, rfl⟩
  · refine ⟨by simp, ?_, rfl⟩
    intro c hc
    simp only [List.mem_singleton] at hc
    subst hc
    decide
  · refine ⟨natToStr_ne_nil n,
      fun c hc => (digitChars_props c (natToStr_subset_digitChars n c hc)).1, ?_⟩
    rw [validateCronPart_natToStr_eq, amendedFieldOk_natToStr_eq]
  · refine ⟨by simp, ?_, ?_⟩
    · intro c hc
      simp only [List.mem_cons] at hc
      rcases hc with rfl | rfl | hc
      · decide
      · decide
      · exact (digitChars_props c (natToStr_subset_digitChars n c hc)).1
    · rw [validateCronPart_step_eq, amendedFieldOk_step_eq]

/-- Membership via `getLast?`. -/
theorem mem_of_getLast?_eq (l : Str) (c : Char) (h : l.getLast? = some c) : c ∈ l := by
  rcases List.eq_nil_or_concat l with rfl | ⟨l', a, rfl⟩
  · simp at h
  · rw [List.concat_eq_append, List.getLast?_concat] at h
    injection h with h
    simp [← h]

/-- Splitting a rendered five-field expression at a separator class that
captures the single space but none of the field characters recovers the five
fields. -/
theorem splitP_renderCron (P : Char → Bool) (hP : P ' ' = true) (r1 r2 r3 r4 r5 : Str)
    (h1 : ∀ c ∈ r1, P c = false) (h2 : ∀ c ∈ r2, P c = false)
    (h3 : ∀ c ∈ r3, P c = false) (h4 : ∀ c ∈ r4, P c = false)
    (h5 : ∀ c ∈ r5, P c = false) :
    splitP P (renderCron r1 r2 r3 r4 r5) = [r1, r2, r3, r4, r5] := by
  unfold renderCron
  rw [splitP_append_cons P r1 ' ' _ h1 hP, splitP_append_cons P r2 ' ' _ h2 hP,
    splitP_append_cons P r3 ' ' _ h3 hP, splitP_append_cons P r4 ' ' _ h4 hP,
    splitP_eq_single P r5 h5]

/-- A rendered expression with whitespace-free fields and nonempty outer
fields is trim-stable. -/
theorem jsTrim_renderCron (r1 r2 r3 r4 r5 : Str) (hne1 : r1 ≠ []) (hne5 : r5 ≠ [])
    (h1 : ∀ c ∈ r1, isJsWs c = false) (h5 : ∀ c ∈ r5, isJsWs c = false) :
    jsTrim (renderCron r1 r2 r3 r4 r5) = renderCron r1 r2 r3 r4 r5 := by
  apply jsTrim_eq_self
  · intro c hc
    rw [show renderCron r1 r2 r3 r4 r5 =
      r1 ++ ' ' :: (r2 ++ ' ' :: (r3 ++ ' ' :: (r4 ++ ' ' :: r5))) from rfl,
      List.head?_append_of_ne_nil r1 hne1] at hc
    exact h1 c (List.mem_of_mem_head? (by rw [hc]; simp))
  · intro c hc
    have hlast : (renderCron r1 r2 r3 r4 r5).getLast? = r5.getLast? := by
      rw [show renderCron r1 r2 r3 r4 r5 =
        r1 ++ ' ' :: (r2 ++ ' ' :: (r3 ++ ' ' :: (r4 ++ ' ' :: r5))) from rfl]
      rw [List.getLast?_append_of_ne_nil r1 (by simp),
        show (' ' :: (r2 ++ ' ' :: (r3 ++ ' ' :: (r4 ++ ' ' :: r5)))) =
          [' '] ++ (r2 ++ ' ' :: (r3 ++ ' ' :: (r4 ++ ' ' :: r5))) from rfl,
        List.getLast?_append_of_ne_nil [' ']
          (List.append_ne_nil_of_right_ne_nil r2 (by simp)),
        List.getLast?_append_of_ne_nil r2 (by simp),
        show (' ' :: (r3 ++ ' ' :: (r4 ++ ' ' :: r5))) =
          [' '] ++ (r3 ++ ' ' :: (r4 ++ ' ' :: r5)) from rfl,
        List.getLast?_append_of_ne_nil [' ']
          (List.append_ne_nil_of_right_ne_nil r3 (by simp)),
        List.getLast?_append_of_ne_nil r3 (by simp),
        show (' ' :: (r4 ++ ' ' :: r5)) = [' '] ++ (r4 ++ ' ' :: r5) from rfl,
        List.getLast?_append_of_ne_nil [' ']
          (List.append_ne_nil_of_right_ne_nil r4 (by simp)),
        List.getLast?_append_of_ne_nil r4 (by simp),
        show (' ' :: r5) = [' '] ++ r5 from rfl,
        List.getLast?_append_of_ne_nil [' '] hne5]
    rw [hlast] at hc
    exact h5 c (mem_of_getLast?_eq r5 c hc)

/-- `jsTrimSplitWs` of a rendered expression with nonempty, whitespace-free
fields recovers the five fields. -/
theorem jsTrimSplitWs_renderCron (r1 r2 r3 r4 r5 : Str)
    (hne1 : r1 ≠ []) (hne2 : r2 ≠ []) (hne3 : r3 ≠ []) (hne4 : r4 ≠ []) (hne5 : r5 ≠ [])
    (h1 : ∀ c ∈ r1, isJsWs c = false) (h2 : ∀ c ∈ r2, isJsWs c = false)
    (h3 : ∀ c ∈ r3, isJsWs c = false) (h4 : ∀ c ∈ r4, isJsWs c = false)
    (h5 : ∀ c ∈ r5, isJsWs c = false) :
    jsTrimSplitWs (renderCron r1 r2 r3 r4 r5) = [r1, r2, r3, r4, r5] := by
  unfold jsTrimSplitWs
  rw [jsTrim_renderCron r1 r2 r3 r4 r5 hne1 hne5 h1 h5]
  rw [if_neg (show ¬(renderCron r1 r2 r3 r4 r5 = []) from by
    rw [show renderCron r1 r2 r3 r4 r5 =
      r1 ++ ' ' :: (r2 ++ ' ' :: (r3 ++ ' ' :: (r4 ++ ' ' :: r5))) from rfl]
    exact List.append_ne_nil_of_right_ne_nil r1 (by simp))]
  rw [splitP_renderCron isJsWs (by decide) r1 r2 r3 r4 r5 h1 h2 h3 h4 h5]
  simp [List.filter_cons, hne1, hne2, hne3, hne4, hne5]

/-- `jsSplitChar ' '` of a rendered expression with whitespace-free fields
recovers the five fields. -/
theorem jsSplitChar_renderCron (r1 r2 r3 r4 r5 : Str)
    (h1 : ∀ c ∈ r1, isJsWs c = false) (h2 : ∀ c ∈ r2, isJsWs c = false)
    (h3 : ∀ c ∈ r3, isJsWs c = false) (h4 : ∀ c ∈ r4, isJsWs c = false)
    (h5 : ∀ c ∈ r5, isJsWs c = false) :
    jsSplitChar ' ' (renderCron r1 r2 r3 r4 r5) = [r1, r2, r3, r4, r5] := by
  unfold jsSplitChar
  have hspace : ∀ (r : Str), (∀ c ∈ r, isJsWs c = false) →
      ∀ c ∈ r, (c == ' ') = false := by
    intro r hr c hc
    rw [beq_eq_false_iff_ne]
    intro h
    rw [h] at hc
    have := hr ' ' hc
    simp [isJsWs] at this
  exact splitP_renderCron _ (by decide) r1 r2 r3 r4 r5
    (hspace r1 h1) (hspace r2 h2) (hspace r3 h3) (hspace r4 h4) (hspace r5 h5)

/-- Whitespace characters are neither digits nor `'/'` nor `'*'`. -/
theorem ws_char_props (c : Char) (h : isJsWs c = true) :
    c.isDigit = false ∧ c ≠ '/' ∧ c ≠ '*' := by
  unfold isJsWs at h
  simp only [Bool.or_eq_true, beq_iff_eq] at h
  rcases h with ((((rfl | rfl) | rfl) | rfl) | rfl) | rfl <;>
    exact ⟨by decide, by decide, by decide⟩

/-- `takeWhile` ignores an all-failing suffix. -/
theorem takeWhile_append_fail_suffix (p : Char → Bool) (t w : Str)
    (hw : ∀ c ∈ w, p c = false) : (t ++ w).takeWhile p = t.takeWhile p := by
  rw [List.takeWhile_append]
  by_cases h : (t.takeWhile p).length = t.length
  · rw [if_pos h]
    have hfull : t.takeWhile p = t :=
      (List.takeWhile_prefix p).eq_of_length h
    have hw0 : w.takeWhile p = [] := by
      cases w with
      | nil => rfl
      | cons c w' => rw [List.takeWhile_cons, hw c (List.mem_cons_self _ _)]; rfl
    rw [hw0, List.append_nil, hfull]
  · rw [if_neg h]

/-- The digit prefix before the next `'/'` of an extended string parses
whenever it does on the shorter string and the extension begins with
whitespace. -/
theorem jsParseInt_take_slash_isSome (m : Nat) (C d : Str)
    (hC : C.takeWhile (fun c => !(c == '/')) = natToStr m)
    (hd : ∀ c, d.head? = some c → isJsWs c = true) :
    (jsParseInt ((C ++ d).takeWhile (fun c => !(c == '/')))).isSome = true := by
  by_cases hfull : C.takeWhile (fun c => !(c == '/')) = C
  · have hCall : ∀ c ∈ C, (fun c => !(c == '/')) c = true :=
      List.takeWhile_eq_self_iff.mp hfull
    have hCm : C = natToStr m := hfull.symm.trans hC
    rw [takeWhile_append_all _ C d hCall, hCm]
    cases d with
    | nil =>
      rw [show (([] : Str).takeWhile (fun c => !(c == '/'))) = [] from rfl, List.append_nil,
        jsParseInt_natToStr m]
      rfl
    | cons c0 d' =>
      have hws0 := hd c0 rfl
      have hprops := ws_char_props c0 hws0
      have hc0 : (c0 == '/') = false := beq_eq_false_iff_ne.mpr hprops.2.1
      rw [List.takeWhile_cons]
      simp only [hc0, Bool.not_false, if_true]
      rw [jsParseInt_natToStr_append m _ (by
        intro c hc
        simp only [List.head?_cons, Option.some.injEq] at hc
        exact hc ▸ hprops.1)]
      rfl
  · obtain ⟨x, y, hxy, hx⟩ := takeWhile_ne_self_decomp _ C hfull
    rw [hC] at hxy
    have hall : ∀ c ∈ natToStr m, (fun c => !(c == '/')) c = true := by
      intro c hc
      have := (digitChars_props c (natToStr_subset_digitChars m c hc)).2.2.1
      simp [beq_eq_false_iff_ne, this]
    rw [hxy, List.append_assoc, List.cons_append,
      takeWhile_append_stop _ _ x _ hall hx, jsParseInt_natToStr m]
    rfl

/-- For a validated `*/…` expression, the token of the first field between
`*/` and the next `'/'` is a canonical positive numeral. -/
theorem validated_star_slash_step (r : Str)
    (hv : validateCronExpression ('*' :: '/' :: r) = true) :
    ∃ m : Nat, 1 ≤ m ∧
      ((r.takeWhile (fun c => !isJsWs c)).takeWhile (fun c => !(c == '/'))) = natToStr m := by
  have hdrop : ('*' :: '/' :: r).dropWhile isJsWs = '*' :: '/' :: r := by
    rw [List.dropWhile_cons, show isJsWs '*' = false from rfl]
    simp
  obtain ⟨w, hw, hwall⟩ := trimRight_decomp ('*' :: '/' :: r)
  rcases htt : trimRight ('*' :: '/' :: r) with _ | ⟨c1, _ | ⟨c2, t'⟩⟩ <;> rw [htt] at hw
  · exfalso
    rw [List.nil_append] at hw
    have h1 : ('*' : Char) ∈ w := by rw [← hw]; simp
    exact absurd (hwall '*' h1) (by decide)
  · exfalso
    rw [List.cons_append, List.nil_append] at hw
    injection hw with h1 h2
    have h3 : ('/' : Char) ∈ w := by rw [← h2]; simp
    exact absurd (hwall '/' h3) (by decide)
  · rw [List.cons_append, List.cons_append] at hw
    injection hw with h1 hw'
    injection hw' with h2 hw''
    subst h1
    subst h2
    have hC' : (('*' : Char) :: '/' :: t').takeWhile (fun c => !isJsWs c) =
        '*' :: '/' :: t'.takeWhile (fun c => !isJsWs c) := by
      rw [List.takeWhile_cons, show ((!isJsWs '*') = true) from rfl]
      rw [if_pos rfl, List.takeWhile_cons, show ((!isJsWs '/') = true) from rfl, if_pos rfl]
    have hsplitdef : jsTrimSplitWs ('*' :: '/' :: r) =
        (splitP isJsWs ('*' :: '/' :: t')).filter (· ≠ []) := by
      unfold jsTrimSplitWs jsTrim
      rw [hdrop, htt]
      rw [if_neg (by simp)]
    cases hsp : splitP isJsWs ('*' :: '/' :: t') with
    | nil => exact absurd hsp (splitP_ne_nil _ _)
    | cons s0 ss =>
      have hs0 : s0 = '*' :: '/' :: t'.takeWhile (fun c => !isJsWs c) := by
        have := splitP_getD_zero isJsWs ('*' :: '/' :: t')
        rw [hsp] at this
        simp only [List.getD_cons_zero] at this
        rw [this, hC']
      have hsplit : jsTrimSplitWs ('*' :: '/' :: r) =
          ('*' :: '/' :: t'.takeWhile (fun c => !isJsWs c)) :: ss.filter (· ≠ []) := by
        rw [hsplitdef, hsp, List.filter_cons, hs0]
        simp
      unfold validateCronExpression at hv
      rw [hsplit] at hv
      rcases hL : ss.filter (· ≠ []) with _ | ⟨f2, _ | ⟨f3, _ | ⟨f4, _ | ⟨f5, _ | ⟨f6, L6⟩⟩⟩⟩⟩ <;>
        rw [hL] at hv
      · exact Bool.noConfusion hv
      · exact Bool.noConfusion hv
      · exact Bool.noConfusion hv
      · exact Bool.noConfusion hv
      swap
      · exact Bool.noConfusion hv
      have hpart : validateCronPart
          ('*' :: '/' :: t'.takeWhile (fun c => !isJsWs c)) 0 59 = true := by
        have hv' : (validateCronPart ('*' :: '/' :: t'.takeWhile (fun c => !isJsWs c)) 0 59 &&
            validateCronPart f2 0 23 && validateCronPart f3 1 31 &&
            validateCronPart f4 1 12 && validateCronPart f5 0 6) = true := hv
        simp only [Bool.and_eq_true] at hv'
        exact hv'.1.1.1.1
      set C' := t'.takeWhile (fun c => !isJsWs c) with hC'def
      have hbeq : (('*' :: '/' :: C') == ['*']) = false := by
        apply beq_eq_false_iff_ne.mpr
        simp
      have hcont : ('*' :: '/' :: C').contains '/' = true :=
        contains_true_of_mem _ _ (by simp)
      have hrange : (jsSplitChar '/' ('*' :: '/' :: C')).getD 0 [] = ['*'] := by
        unfold jsSplitChar
        rw [splitP_getD_zero, List.takeWhile_cons, show ((!('*' == '/')) = true) from rfl,
          if_pos rfl, List.takeWhile_cons, show ((!('/' == '/')) = false) from rfl]
        simp
      have hstepeq : (jsSplitChar '/' ('*' :: '/' :: C')).getD 1 [] =
          C'.takeWhile (fun c => !(c == '/')) := by
        unfold jsSplitChar
        exact splitP_star_slash_getD_one _ _ (by decide) (by decide)
      unfold validateCronPart at hpart
      rw [hbeq, hcont] at hpart
      simp only [Bool.false_eq_true, if_false, if_true, hrange, hstepeq] at hpart
      have hiv : isValidNumber (C'.takeWhile (fun c => !(c == '/'))) 1 59 = true := by
        rcases hivc : isValidNumber (C'.takeWhile (fun c => !(c == '/'))) 1 59 with _ | _
        · rw [hivc] at hpart
          simp at hpart
        · rfl
      cases hjp : jsParseInt (C'.takeWhile (fun c => !(c == '/'))) with
      | none =>
        unfold isValidNumber at hiv
        rw [hjp] at hiv
        exact absurd hiv (by simp)
      | some k =>
        unfold isValidNumber at hiv
        rw [hjp] at hiv
        simp only [Bool.and_eq_true, decide_eq_true_eq, beq_iff_eq] at hiv
        obtain ⟨⟨h1k, h2k⟩, h3k⟩ := hiv
        have hAtrim : jsTrim (C'.takeWhile (fun c => !(c == '/'))) =
            C'.takeWhile (fun c => !(c == '/')) := by
          apply jsTrim_eq_self_of_all
          intro c hc
          have h2m : c ∈ C' := List.takeWhile_subset _ hc
          have h3m := List.mem_takeWhile_imp h2m
          simpa using h3m
        have hAeq : C'.takeWhile (fun c => !(c == '/')) = intToStr k := by
          rw [hAtrim] at h3k
          exact h3k.symm
        have hint : intToStr k = natToStr k.toNat := by
          unfold intToStr
          rw [if_neg (by omega)]
        refine ⟨k.toNat, by omega, ?_⟩
        have hCr : r.takeWhile (fun c => !isJsWs c) = C' := by
          rw [hw'', hC'def]
          exact takeWhile_append_fail_suffix _ t' w (fun c hc => by simp [hwall c hc])
        rw [hCr, hAeq, hint]

/-- For every cron expression the validator accepts, `getNextExecutionTime`
yields an instant (the `NaN`/`Invalid Date` path is unreachable). -/
theorem getNextExecutionTime_isSome_of_valid (E timezone : Str) (now : Nat)
    (h : validateCronExpression E = true) :
    (getNextExecutionTime E timezone now).isSome = true := by
  cases hb1 : (E == ("* * * * *".data)) with
  | true => simp [getNextExecutionTime, hb1]
  | false =>
    cases hb2 : (("*/".data).isPrefixOf E) with
    | false =>
      cases hb3 : (E == ("0 * * * *".data)) with
      | true => simp [getNextExecutionTime, hb1, hb2, hb3]
      | false =>
        cases hb4 : (E == ("0 0 * * *".data)) with
        | true => simp [getNextExecutionTime, hb1, hb2, hb3, hb4]
        | false => simp [getNextExecutionTime, hb1, hb2, hb3, hb4]
    | true =>
      have hpre : (("*/".data) : Str) <+: E := List.isPrefixOf_iff_prefix.mp hb2
      obtain ⟨r, hr⟩ := hpre
      rw [show (("*/".data) : Str) = ['*', '/'] from rfl, List.cons_append,
        List.singleton_append] at hr
      subst hr
      obtain ⟨m, hm, hA⟩ := validated_star_slash_step r h
      have htok : (jsSplitChar ' ' ('*' :: '/' :: r)).getD 0 [] =
          '*' :: '/' :: r.takeWhile (fun c => !(c == ' ')) := by
        unfold jsSplitChar
        rw [splitP_getD_zero, List.takeWhile_cons, show ((!('*' == ' ')) = true) from rfl,
          if_pos rfl, List.takeWhile_cons, show ((!('/' == ' ')) = true) from rfl, if_pos rfl]
      have hstepeq : (jsSplitChar '/'
          ('*' :: '/' :: r.takeWhile (fun c => !(c == ' ')))).getD 1 [] =
          (r.takeWhile (fun c => !(c == ' '))).takeWhile (fun c => !(c == '/')) := by
        unfold jsSplitChar
        exact splitP_star_slash_getD_one _ _ (by decide) (by decide)
      obtain ⟨d, hBd, hdhead⟩ := takeWhile_mono_decomp (fun c => !isJsWs c)
        (fun c => !(c == ' '))
        (by
          intro c hc
          cases hcc : (c == ' ') with
          | false => simp [hcc]
          | true =>
            rw [beq_iff_eq] at hcc
            subst hcc
            simp [isJsWs] at hc) r
      have hsome := jsParseInt_take_slash_isSome m (r.takeWhile (fun c => !isJsWs c)) d hA
        (fun c hc => by
          have := hdhead c hc
          simpa using this.1)
      rw [← hBd] at hsome
      obtain ⟨k, hk⟩ := Option.isSome_iff_exists.mp hsome
      simp only [getNextExecutionTime, hb1, hb2, Bool.false_eq_true, if_false, if_true]
      rw [htok, hstepeq, hk]
      rfl

/-! ### Claims -/

set_option maxRecDepth 4000 in
/-- Claim C1: the spec says `getNextExecutionTime(E, Z)` returns the smallest
instant after now whose wall-clock decomposition in Z satisfies E.  The code
is an approximation (its own comment reads "In production, you'd use a proper
cron parser"): for the accepted expression `0 9 * * *` at the epoch instant
it returns epoch+1 minute (00:01), which does not satisfy the expression at
all, while the actual smallest satisfying instant is 09:00 (minute 540). -/
theorem c1_getNextExecutionTime_not_next_fire :
    createJobCronAccepts ("0 9 * * *".data) = true ∧
    getNextExecutionTime ("0 9 * * *".data) ("UTC".data) 0 = some 1 ∧
    cronSatisfiedAt ("0 9 * * *".data) 1 = false ∧
    cronSatisfiedAt ("0 9 * * *".data) 540 = true ∧
    ((List.range 539).all (fun t => !cronSatisfiedAt ("0 9 * * *".data) (t + 1))) = true := by
  refine ⟨by decide, by decide, by decide, by decide, ?_⟩
  decide

/-- Claim C2 counterexample: toggling the active sample job to paused leaves
`next_execution = some 7` — not null as the claim requires (the update data
spreads `next_execution` only when activating). -/
theorem c2_pause_keeps_next_execution :
    (toggleJobStatus sampleDB 10 1 100).map (fun r => (r.2.status, r.2.next_execution)) =
      Except.ok (JobStatus.paused, some 7) ∧ some 7 ≠ (none : Option Nat) := by
  exact ⟨rfl, by decide⟩

/-- Claim C2, amended: toggling an active job to paused writes only the
status (and `updated_at`), leaving `next_execution` at its previous value;
and finalizing an execution overwrites `next_execution` of every row with
the fired job's id with `getNextExecutionTime(cron, tz, now)` regardless of
status — finalization never changes any job's status, so a paused job stays
paused with a recomputed (not null) `next_execution`. -/
theorem c2_amended_pause_and_finalize :
    (∀ db userId jobId now ej,
      findFirstJob db userId jobId = some ej →
      ej.status = JobStatus.active →
      (toggleJobStatus db userId jobId now).map (fun r => (r.2.status, r.2.next_execution)) =
        Except.ok (JobStatus.paused, ej.next_execution)) ∧
    (∀ db job o now dur,
      (executeJob db job o now dur).jobs.map (fun j => j.next_execution) =
        db.jobs.map (fun j =>
          if j.id = job.id then getNextExecutionTime job.cron_expression job.timezone now
          else j.next_execution) ∧
      (executeJob db job o now dur).jobs.map (fun j => j.status) =
        db.jobs.map (fun j => j.status)) := by
  constructor
  · intro db userId jobId now ej hfind hact
    simp [toggleJobStatus, hfind, hact, Except.map]
  · intro db job o now dur
    constructor
    · simp only [executeJob, List.map_map]
      apply List.map_congr_left
      intro j _
      by_cases h : j.id = job.id <;> simp [h, applyExecJobUpdate]
    · simp only [executeJob, List.map_map]
      apply List.map_congr_left
      intro j _
      by_cases h : j.id = job.id <;> simp [h, applyExecJobUpdate]

/-- Witness for C2's amended theorem at the sample database. -/
theorem c2_amended_pause_and_finalize_witness :
    (toggleJobStatus sampleDB 10 1 100).map (fun r => (r.2.status, r.2.next_execution)) =
      Except.ok (JobStatus.paused, sampleJob.next_execution) :=
  c2_amended_pause_and_finalize.1 sampleDB 10 1 100 sampleJob (by decide) (by decide)

/-- Claim C3 counterexample: when the 30-second budget elapses axios rejects
with no response; `executeJob`'s catch block finalizes the row with status
`failed` (response_code null, the axios timeout message) — not `timeout` as
the claim states. -/
theorem c3_timeout_finalized_as_failed :
    ((executeJob sampleDB sampleJob timeoutOutcome 50 30000).executions.map
      (fun e => (e.status, e.response_code, e.error_message))) =
      [(ExecStatus.failed, none, some ("timeout of 30000ms exceeded".data))] ∧
    ExecStatus.failed ≠ ExecStatus.timeout := by
  exact ⟨rfl, by decide⟩

/-- Claim C3, amended: an invocation whose 30-second budget elapses (axios
rejection carrying no HTTP status) is finalized with status `failed` — the
status `timeout` is never written — with `response_code` null and the
timeout message as `error_message`; a received status outside [200, 300) is
also finalized `failed`; and every execution row `executeJob` produces or
rewrites has status `success` or `failed`, never `timeout`. -/
theorem c3_amended_failure_taxonomy :
    (∀ db job now dur msg,
      ((executeJob db job (HttpOutcome.failure msg none) now dur).executions.head?).map
        (fun e => (e.status, e.response_code, e.error_message)) =
        some (ExecStatus.failed, none, some msg)) ∧
    (∀ db job st dataJson hs now dur, ¬(200 ≤ st ∧ st < 300) →
      ((executeJob db job (HttpOutcome.response st dataJson hs) now dur).executions.head?).map
        (fun e => e.status) = some ExecStatus.failed) ∧
    (∀ db job o now dur e, e ∈ (executeJob db job o now dur).executions →
      e ∈ db.executions ∨ e.status = ExecStatus.success ∨ e.status = ExecStatus.failed) := by
  refine ⟨?_, ?_, ?_⟩
  · intro db job now dur msg
    simp [executeJob, finalizeExec, mkRunningExec]
  · intro db job st dataJson hs now dur hst
    simp [executeJob, finalizeExec, mkRunningExec, hst]
  · intro db job o now dur e he
    simp only [executeJob, List.mem_map, List.mem_cons] at he
    obtain ⟨e', he', rfl⟩ := he
    by_cases hid : e'.id = (mkRunningExec db job.id now).id
    · simp only [hid, if_pos rfl]
      cases o with
      | response st dataJson hs =>
        by_cases hs2 : 200 ≤ st ∧ st < 300 <;> simp [finalizeExec, hs2]
      | failure msg st? => simp [finalizeExec]
    · rcases he' with rfl | he'
      · simp at hid
      · simp only [if_neg hid]
        exact Or.inl he'

/-- Witness for C3's amended theorem: a 500 response is finalized `failed`. -/
theorem c3_amended_failure_taxonomy_witness :
    ¬(200 ≤ 500 ∧ 500 < 300) ∧
    ((executeJob sampleDB sampleJob (HttpOutcome.response 500 [] []) 77 10).executions.head?).map
      (fun e => e.status) = some ExecStatus.failed :=
  ⟨by decide, c3_amended_failure_taxonomy.2.1 sampleDB sampleJob 500 [] [] 77 10 (by decide)⟩

/-- Claim C4 counterexample: a manual trigger of the sample job creates
exactly one execution row, but `executeJob` hard-codes
`triggered_by: 'cron'`, so the row is labelled `cron`, not `manual`. -/
theorem c4_manual_trigger_labelled_cron :
    (triggerJob sampleDB 10 1 (HttpOutcome.response 200 ("\"ok\"".data) []) 50 10).map
      (fun db' => db'.executions.map (fun e => e.triggered_by)) =
      Except.ok [TriggeredBy.cron] ∧
    TriggeredBy.cron ≠ TriggeredBy.manual := by
  exact ⟨rfl, by decide⟩

/-- Claim C4, amended: a manual trigger of an existing (owned, non-deleted)
job creates exactly one new execution row, and that row has
`triggered_by = 'cron'` (not `'manual'`): `executeJob` takes no
trigger-origin parameter and always writes `'cron'`. -/
theorem c4_amended_manual_trigger_row :
    ∀ db userId jobId o now dur j0,
      findFirstJob db userId jobId = some j0 →
      (triggerJob db userId jobId o now dur).map (fun db' =>
        (db'.executions.length, db'.executions.head?.map (fun e => e.triggered_by))) =
        Except.ok (db.executions.length + 1, some TriggeredBy.cron) := by
  intro db userId jobId o now dur j0 hfind
  have hmem := List.mem_of_find?_eq_some hfind
  have hpred := List.find?_some hfind
  simp only [Bool.and_eq_true, beq_iff_eq] at hpred
  have hsome : (db.jobs.find? (fun j' => j'.id == jobId)).isSome := by
    rw [List.find?_isSome]
    exact ⟨j0, hmem, by simp [hpred.1.1]⟩
  obtain ⟨j, hj⟩ := Option.isSome_iff_exists.mp hsome
  simp only [triggerJob, hfind, workerTriggerJob, hj]
  cases o with
  | response st dataJson hs =>
    simp [executeJob, finalizeExec, mkRunningExec, Except.map]
  | failure msg st? =>
    simp [executeJob, finalizeExec, mkRunningExec, Except.map]

/-- Witness for C4's amended theorem at the sample database. -/
theorem c4_amended_manual_trigger_row_witness :
    (triggerJob sampleDB 10 1 (HttpOutcome.response 200 ("\"ok\"".data) []) 50 10).map
      (fun db' => (db'.executions.length, db'.executions.head?.map (fun e => e.triggered_by))) =
      Except.ok (sampleDB.executions.length + 1, some TriggeredBy.cron) :=
  c4_amended_manual_trigger_row sampleDB 10 1 (HttpOutcome.response 200 ("\"ok\"".data) []) 50 10
    sampleJob (by decide)

/-- Claim C5 counterexample: `0 9 * * 1-5` is a well-formed expression of
the claimed grammar (day-of-week range `1-5` with `1 < 5 ≤ 6`), yet the
creation path rejects it: the Joi regex at `validation.js` line 153 has no
range alternative, so `validateCronJobCreation` raises a `ValidationError`
before `validateCronPart` (which does accept ranges) is ever consulted. -/
theorem c5_range_rejected_by_creation :
    parseCronExprSpec ("0 9 * * 1-5".data) =
      some { minute := [CronElem.num 0], hour := [CronElem.num 9],
             day := [CronElem.star], month := [CronElem.star],
             dow := [CronElem.range 1 5] } ∧
    createJobCronAccepts ("0 9 * * 1-5".data) = false := by
  exact ⟨by decide, by decide⟩

/-- Claim C5, amended: the creation path accepts exactly the amended
grammar.  For every input string, the conjunction of the Joi regex check and
`validateCronExpression` applied by `createJob` coincides with the amended
recognizer — five single-space-separated fields, each `*`, a canonically
written in-range integer, or `*/n` with `1 ≤ n ≤` the field's max.  Both
inclusions hold, so every expression outside that language — range fields
`a-b`, stepped ranges `a-b/n`, comma lists, `*/0`, non-canonical numerals
such as `05`, wrong field counts — is rejected by the creation path. -/
theorem c5_amended_creation_grammar_exact :
    ∀ s : Str, createJobCronAccepts s = amendedCronAccepts s := by
  intro s
  unfold createJobCronAccepts sanitizeStr amendedCronAccepts joiCronRegexAccepts
  generalize hsplit : jsSplitChar ' ' (jsTrim s) = L
  rcases L with _ | ⟨f1, _ | ⟨f2, _ | ⟨f3, _ | ⟨f4, _ | ⟨f5, _ | ⟨f6, t⟩⟩⟩⟩⟩⟩
  · rfl
  · rfl
  · rfl
  · rfl
  · rfl
  · show ((joiFieldAccepts 0 59 f1 && joiFieldAccepts 0 23 f2 && joiFieldAccepts 1 31 f3 &&
        joiFieldAccepts 1 12 f4 && joiFieldAccepts 0 6 f5) &&
        validateCronExpression (jsTrim s)) =
      (amendedFieldOk 0 59 f1 && amendedFieldOk 0 23 f2 && amendedFieldOk 1 31 f3 &&
        amendedFieldOk 1 12 f4 && amendedFieldOk 0 6 f5)
    cases hjoi : (joiFieldAccepts 0 59 f1 && joiFieldAccepts 0 23 f2 &&
        joiFieldAccepts 1 31 f3 && joiFieldAccepts 1 12 f4 && joiFieldAccepts 0 6 f5) with
    | false =>
      rw [Bool.false_and]
      cases hamd : (amendedFieldOk 0 59 f1 && amendedFieldOk 0 23 f2 &&
          amendedFieldOk 1 31 f3 && amendedFieldOk 1 12 f4 && amendedFieldOk 0 6 f5) with
      | false => rfl
      | true =>
        simp only [Bool.and_eq_true] at hamd
        obtain ⟨⟨⟨⟨a1, a2⟩, a3⟩, a4⟩, a5⟩ := hamd
        rw [amendedFieldOk_mono 0 59 (by omega) f1 a1,
          amendedFieldOk_mono 0 23 (by omega) f2 a2,
          amendedFieldOk_mono 1 31 (by omega) f3 a3,
          amendedFieldOk_mono 1 12 (by omega) f4 a4,
          amendedFieldOk_mono 0 6 (by omega) f5 a5] at hjoi
        simp at hjoi
    | true =>
      rw [Bool.true_and]
      simp only [Bool.and_eq_true] at hjoi
      obtain ⟨⟨⟨⟨j1, j2⟩, j3⟩, j4⟩, j5⟩ := hjoi
      obtain ⟨hne1, hws1, hv1⟩ := joiField_agree 0 59 (by omega) f1 j1
      obtain ⟨hne2, hws2, hv2⟩ := joiField_agree 0 23 (by omega) f2 j2
      obtain ⟨hne3, hws3, hv3⟩ := joiField_agree 1 31 (by omega) f3 j3
      obtain ⟨hne4, hws4, hv4⟩ := joiField_agree 1 12 (by omega) f4 j4
      obtain ⟨hne5, hws5, hv5⟩ := joiField_agree 0 6 (by omega) f5 j5
      have ht : jsTrim s = renderCron f1 f2 f3 f4 f5 := by
        have hj := joinSep_jsSplitChar ' ' (jsTrim s)
        rw [hsplit] at hj
        exact hj.symm
      rw [ht]
      unfold validateCronExpression
      rw [jsTrimSplitWs_renderCron f1 f2 f3 f4 f5 hne1 hne2 hne3 hne4 hne5
        hws1 hws2 hws3 hws4 hws5]
      show (validateCronPart f1 0 59 && validateCronPart f2 0 23 &&
          validateCronPart f3 1 31 && validateCronPart f4 1 12 &&
          validateCronPart f5 0 6) =
        (amendedFieldOk 0 59 f1 && amendedFieldOk 0 23 f2 && amendedFieldOk 1 31 f3 &&
          amendedFieldOk 1 12 f4 && amendedFieldOk 0 6 f5)
      simp only [Nat.cast_ofNat, Nat.cast_zero, Nat.cast_one] at hv1 hv2 hv3 hv4 hv5
      rw [hv1, hv2, hv3, hv4, hv5]
  · rfl

/-- Witness for C5's amended theorem at a concrete input: the exact
characterization instantiated at `*/15 * * * 1-5`, a step plus a range,
which both the creation path and the amended recognizer reject. -/
theorem c5_amended_creation_grammar_exact_witness :
    createJobCronAccepts ("*/15 * * * 1-5".data) =
      amendedCronAccepts ("*/15 * * * 1-5".data) :=
  c5_amended_creation_grammar_exact ("*/15 * * * 1-5".data)

/-- Claim C6 counterexample: `orphanDB` holds an execution stuck in
`running` whose `executed_at` (0) predates a process start at instant 100.
`JobWorkerService.start` / `loadAndScheduleJobs` only read the active jobs;
after startup the database is unchanged: the row is still `running` with no
`error_message`, and the parent job's `failure_count` is still 0 — no
`worker_crashed` finalization exists anywhere in the code. -/
theorem c6_startup_leaves_orphan_running :
    orphanExec.executed_at < 100 ∧ orphanExec.status = ExecStatus.running ∧
    (workerStart orphanDB).1 = orphanDB ∧
    ((workerStart orphanDB).1.executions.map (fun e => (e.status, e.error_message))) =
      [(ExecStatus.running, none)] ∧
    ((workerStart orphanDB).1.jobs.map (fun j => j.failure_count)) = [0] := by
  exact ⟨by decide, rfl, rfl, rfl, rfl⟩

/-- Claim C6, amended: at process startup the worker performs no database
writes at all — it only loads the jobs with status `active` and non-null
`next_execution` into its live set; in particular every execution row in
status `running` (however old) is left exactly as it was, with no
finalization, no `worker_crashed` message, and no counter update. -/
theorem c6_amended_startup_reads_only :
    ∀ db, (workerStart db).1 = db ∧
      (∀ e, e ∈ db.executions → e.status = ExecStatus.running →
        e ∈ (workerStart db).1.executions ∧ e.status = ExecStatus.running) := by
  intro db
  exact ⟨rfl, fun e he hs => ⟨he, hs⟩⟩

/-- Witness for C6's amended theorem at the orphan database. -/
theorem c6_amended_startup_reads_only_witness :
    orphanExec ∈ (workerStart orphanDB).1.executions ∧
    orphanExec.status = ExecStatus.running :=
  (c6_amended_startup_reads_only orphanDB).2 orphanExec (by decide) rfl

/-- Claim C7 counterexample: a timezone-only patch on the sample job (cron
`0 0 * * *`, stored `next_execution = some 7`) updates the timezone but
leaves `next_execution = some 7`, although recomputing "using now" (now = 0)
would give `some 1440` — `updateJob` touches `next_execution` only inside
the `value.cronExpression` branch. -/
theorem c7_timezone_only_patch_no_recompute :
    (updateJob sampleDB 10 1 { timezone := some ("Asia/Kolkata".data) } 0).map
      (fun r => (r.2.timezone == ("Asia/Kolkata".data), r.2.next_execution)) =
      Except.ok (true, some 7) ∧
    getNextExecutionTime sampleJob.cron_expression ("Asia/Kolkata".data) 0 = some 1440 ∧
    some 7 ≠ some (1440 : Nat) := by
  exact ⟨rfl, by decide, by decide⟩

/-- Claim C7, amended: `next_execution` is recomputed (with "now") only when
the patch includes a cron expression, in which case the recomputation uses
the patch's timezone when present and the existing one otherwise; a patch
without a cron expression — including a timezone-only patch — updates the
timezone but leaves `next_execution` unchanged. -/
theorem c7_amended_recompute_only_on_cron_change :
    (∀ db userId jobId p now ej ce,
      findFirstJob db userId jobId = some ej →
      p.cronExpression = some ce →
      joiCronRegexAccepts ce = true →
      validateCronExpression ce = true →
      (updateJob db userId jobId p now).map (fun r => r.2.next_execution) =
        Except.ok (getNextExecutionTime ce (p.timezone.getD ej.timezone) now)) ∧
    (∀ db userId jobId p now ej,
      findFirstJob db userId jobId = some ej →
      p.cronExpression = none →
      (updateJob db userId jobId p now).map (fun r => (r.2.next_execution, r.2.timezone)) =
        Except.ok (ej.next_execution, p.timezone.getD ej.timezone)) := by
  constructor
  · intro db userId jobId p now ej ce hfind hce hjoi hval
    simp [updateJob, hfind, hce, hjoi, hval, Except.map]
  · intro db userId jobId p now ej hfind hce
    simp [updateJob, hfind, hce, Except.map]

/-- Witness for C7's amended theorem: a patch replacing the cron expression
with `*/15 * * * *` (and no timezone) recomputes with the job's stored
timezone. -/
theorem c7_amended_recompute_only_on_cron_change_witness :
    (updateJob sampleDB 10 1 { cronExpression := some ("*/15 * * * *".data) } 0).map
      (fun r => r.2.next_execution) =
      Except.ok (getNextExecutionTime ("*/15 * * * *".data)
        (({ cronExpression := some ("*/15 * * * *".data) } : JobPatch).timezone.getD
          sampleJob.timezone) 0) :=
  c7_amended_recompute_only_on_cron_change.1 sampleDB 10 1
    { cronExpression := some ("*/15 * * * *".data) } 0 sampleJob ("*/15 * * * *".data)
    (by decide) rfl (by decide) (by decide)

/-- Claim C8 counterexample: deleting the sample job (stored
`next_execution = some 7`) sets status `deleted` but leaves
`next_execution = some 7` — not null; and a second delete of the same
(user, id) fails with `NotFound` instead of succeeding as a no-op. -/
theorem c8_delete_keeps_next_execution_and_is_not_idempotent :
    (deleteJob sampleDB 10 1 100).map
      (fun db' => (db'.jobs.map (fun j => (j.status, j.next_execution)),
                   deleteJob db' 10 1 200)) =
      Except.ok ([(JobStatus.deleted, some 7)], Except.error RepoError.notFound) ∧
    some 7 ≠ (none : Option Nat) := by
  exact ⟨rfl, by decide⟩

/-- Claim C8, amended: `deleteJob` on an owned, non-deleted job writes only
`status = deleted` (and `updated_at`) to the rows of that id —
`next_execution` keeps its previous value; a lookup failure (including an
already-deleted job) yields `NotFound`, so the second delete of the same id
errors rather than succeeding as a no-op. -/
theorem c8_amended_soft_delete :
    (∀ db userId jobId now db', deleteJob db userId jobId now = Except.ok db' →
      db'.jobs.map (fun j => (j.status, j.next_execution)) =
        db.jobs.map (fun j =>
          (if j.id = jobId then JobStatus.deleted else j.status, j.next_execution))) ∧
    (∀ db userId jobId now, findFirstJob db userId jobId = none →
      deleteJob db userId jobId now = Except.error RepoError.notFound) ∧
    (∀ db userId jobId now db' userId' now',
      deleteJob db userId jobId now = Except.ok db' →
      deleteJob db' userId' jobId now' = Except.error RepoError.notFound) := by
  refine ⟨?_, ?_, ?_⟩
  · intro db userId jobId now db' hok
    cases hf : findFirstJob db userId jobId with
    | none => simp [deleteJob, hf] at hok
    | some ej =>
      simp only [deleteJob, hf, Except.ok.injEq] at hok
      subst hok
      simp only [List.map_map]
      apply List.map_congr_left
      intro j _
      by_cases h : j.id = jobId <;> simp [h]
  · intro db userId jobId now hf
    simp [deleteJob, hf]
  · intro db userId jobId now db' userId' now' hok
    cases hf : findFirstJob db userId jobId with
    | none => simp [deleteJob, hf] at hok
    | some ej =>
      simp only [deleteJob, hf, Except.ok.injEq] at hok
      subst hok
      have hnone : findFirstJob
          { db with jobs := db.jobs.map (fun j =>
              if j.id = jobId then { j with status := JobStatus.deleted, updated_at := now }
              else j) } userId' jobId = none := by
        apply List.find?_eq_none.mpr
        intro j' hj'
        simp only [List.mem_map] at hj'
        obtain ⟨j, _, rfl⟩ := hj'
        by_cases h : j.id = jobId
        · simp [h]
        · simp [h]
      simp [deleteJob, hnone]

/-- Witness for C8's amended theorem: the second delete at the sample
database errors with `NotFound`. -/
theorem c8_amended_soft_delete_witness :
    deleteJob deletedSampleDB 10 1 200 = Except.error RepoError.notFound :=
  c8_amended_soft_delete.2.2 sampleDB 10 1 100 deletedSampleDB 10 200 rfl

/-- Claim C9: every execution row finalized by `executeJob` stores a
`response_body` of length at most 10 240 (the code truncates with
`substring(0, 10000)`, which is even stricter than the configured
10 240-byte limit); rows it does not touch keep their bound. -/
theorem c9_response_body_bounded :
    ∀ db job o now dur,
      (∀ e0 ∈ db.executions, bodyLen e0 ≤ 10240) →
      ∀ e ∈ (executeJob db job o now dur).executions, bodyLen e ≤ 10240 := by
  intro db job o now dur hdb e he
  simp only [executeJob, List.mem_map, List.mem_cons] at he
  obtain ⟨e', he', rfl⟩ := he
  have hbase : bodyLen e' ≤ 10240 := by
    rcases he' with rfl | he'
    · simp [mkRunningExec, bodyLen]
    · exact hdb e' he'
  by_cases hid : e'.id = (mkRunningExec db job.id now).id
  · simp only [hid, if_pos rfl]
    cases o with
    | response st dataJson hs =>
      simp only [finalizeExec, bodyLen, Option.map_some, Option.getD_some]
      calc (dataJson.take 10000).length ≤ 10000 := List.length_take_le 10000 dataJson
        _ ≤ 10240 := by omega
    | failure msg st? =>
      simpa [finalizeExec, bodyLen] using hbase
  · simpa [if_neg hid] using hbase

/-- Witness for C9 at the sample database: the row finalized from a 200
response with body `"ok"` is within the bound. -/
theorem c9_response_body_bounded_witness :
    bodyLen (finalizeExec (mkRunningExec sampleDB sampleJob.id 5)
      (HttpOutcome.response 200 ("\"ok\"".data) []) 1) ≤ 10240 :=
  c9_response_body_bounded sampleDB sampleJob (HttpOutcome.response 200 ("\"ok\"".data) []) 5 1
    (by simp [sampleDB])
    (finalizeExec (mkRunningExec sampleDB sampleJob.id 5)
      (HttpOutcome.response 200 ("\"ok\"".data) []) 1)
    (by decide)

/-- Claim C10: triggering a paused (non-deleted) job manually performs the
HTTP invocation anyway — the controller's lookup only excludes `deleted`,
and the worker re-fetches by id with no status check: a new execution row is
created (`executions.length + 1`), and on completion every row with the
job's id gets `next_execution` overwritten with `getNextExecutionTime`'s
value — non-null for any validated expression — and `last_execution := now`,
while all statuses (in particular the paused one) are unchanged. -/
theorem c10_trigger_paused_executes :
    ∀ db userId jobId o now dur j0 j,
      findFirstJob db userId jobId = some j0 →
      db.jobs.find? (fun j' => j'.id == jobId) = some j →
      j.status = JobStatus.paused →
      validateCronExpression j.cron_expression = true →
      (getNextExecutionTime j.cron_expression j.timezone now).isSome = true ∧
      (triggerJob db userId jobId o now dur).map (fun db' =>
        (db'.executions.length,
         db'.jobs.map (fun j' => (j'.status, j'.next_execution, j'.last_execution)))) =
        Except.ok (db.executions.length + 1,
          db.jobs.map (fun j' =>
            if j'.id = jobId then
              (j'.status, getNextExecutionTime j.cron_expression j.timezone now, some now)
            else (j'.status, j'.next_execution, j'.last_execution))) := by
  intro db userId jobId o now dur j0 j hfind hworker hpaused hval
  refine ⟨getNextExecutionTime_isSome_of_valid _ _ now hval, ?_⟩
  have hjid : j.id = jobId := by
    have := List.find?_some hworker
    simpa using this
  simp only [triggerJob, hfind, workerTriggerJob, hworker, Except.map]
  simp only [executeJob, List.map_map, List.length_map, List.length_cons, Except.ok.injEq,
    Prod.mk.injEq]
  refine ⟨trivial, ?_⟩
  apply List.map_congr_left
  intro j' _
  by_cases h : j'.id = jobId
  · simp [h, hjid, applyExecJobUpdate]
  · simp [h, hjid, applyExecJobUpdate]

/-- Witness for C10 at the paused sample database: triggering the paused job
adds one execution row and overwrites its `next_execution` (non-null) and
`last_execution` while the status stays paused. -/
theorem c10_trigger_paused_executes_witness :
    (getNextExecutionTime pausedJob.cron_expression pausedJob.timezone 0).isSome = true ∧
    (triggerJob pausedDB 10 1 (HttpOutcome.response 200 ("\"ok\"".data) []) 0 1).map
      (fun db' => (db'.executions.length,
        db'.jobs.map (fun j' => (j'.status, j'.next_execution, j'.last_execution)))) =
      Except.ok (pausedDB.executions.length + 1,
        pausedDB.jobs.map (fun j' =>
          if j'.id = 1 then
            (j'.status, getNextExecutionTime pausedJob.cron_expression pausedJob.timezone 0,
             some 0)
          else (j'.status, j'.next_execution, j'.last_execution))) :=
  c10_trigger_paused_executes pausedDB 10 1 (HttpOutcome.response 200 ("\"ok\"".data) []) 0 1
    pausedJob pausedJob (by decide) (by decide) rfl (by decide)

end CronMaster
